import Mathlib

/-!
Verification development for a Canonical LR(1) parser generator and driver
written in TypeScript.  The core sources are embedded shallowly:

  * `src/core/Grammar.ts`  → `SymbolType`, `Symbol`, `Production`, `Grammar`,
    `parseGrammar`
  * `src/core/Sets.ts`     → `first`, `firstOfSequence`
  * `src/core/Items.ts`    → `LR1Item`, `closure`, `goto`,
    `buildCanonicalCollection`
  * `src/core/Table.ts`    → `Action`, `ParsingTable`, `buildParsingTable`
  * `src/core/Parser.ts`   → `parseString`

JavaScript `Set` objects are embedded as duplicate-free lists that preserve
insertion order (`setAdd`), `Map` objects as association lists with
update-in-place semantics (`alistSet` / `alistGet?`).  Loops whose
termination the source leaves implicit (the closure worklist, the canonical
collection worklist, the parser driver loop) take an explicit fuel
argument; for `closure` a sufficient fuel is computed and proved sufficient
below, for the other loops every theorem is proved for every fuel value.
Recursion in `first` is made structural on an explicit bound that mirrors
the visited-set termination argument of the source.
-/

namespace CLR

/-- The string consisting of a single apostrophe (codepoint 39). -/
def sq : String := String.singleton (Char.ofNat 39)

/-- The epsilon marker string used throughout the source. -/
def epsStr : String := "ε"

/-- Split a character list at every occurrence of the (non-empty)
separator, JavaScript `String.split` style; the fuel is the list length,
which bounds the recursion (each step consumes at least one character). -/
def jsSplitAux (sep : List Char) : Nat → List Char → List Char → List (List Char)
  | _, [], acc => [acc.reverse]
  | 0, l, acc => [acc.reverse ++ l]
  | fuel + 1, c :: rest, acc =>
    if sep ≠ [] ∧ sep.isPrefixOf (c :: rest) then
      acc.reverse :: jsSplitAux sep fuel (List.drop sep.length (c :: rest)) []
    else
      jsSplitAux sep fuel rest (c :: acc)

/-- JavaScript `String.split` with a string separator, kernel-computable
(the core `String.splitOn` does not reduce in the kernel). -/
def jsSplit (s : String) (sep : String) : List String :=
  (jsSplitAux sep.data s.data.length s.data []).map (fun l => String.mk l)

/-- Split a character list at every character satisfying the predicate
(empty pieces between adjacent separators are kept, as with a
single-character regular expression). -/
def jsSplitPredAux (p : Char → Bool) : List Char → List Char → List (List Char)
  | [], acc => [acc.reverse]
  | c :: rest, acc =>
    if p c then acc.reverse :: jsSplitPredAux p rest []
    else jsSplitPredAux p rest (c :: acc)

/-- Split a string at every character satisfying the predicate. -/
def jsSplitPred (s : String) (p : Char → Bool) : List String :=
  (jsSplitPredAux p s.data []).map (fun l => String.mk l)

/-- JavaScript `String.trim`: drop leading and trailing whitespace. -/
def jsTrim (s : String) : String :=
  String.mk (((s.data.dropWhile Char.isWhitespace).reverse.dropWhile
    Char.isWhitespace).reverse)

/-- Symbol classification tags, from `Grammar.ts` (`SymbolType`). -/
inductive SymbolType where
  | TERMINAL
  | NON_TERMINAL
  | EPSILON
  | END
deriving DecidableEq

/-- A grammar symbol: a name with a classification tag (`Grammar.ts`, class `Symbol`). -/
structure Symbol where
  name : String
  type : SymbolType
deriving DecidableEq

/-- A production `lhs -> rhs` (`Grammar.ts`, class `Production`).  An empty
`rhs` denotes an epsilon production. -/
structure Production where
  lhs : Symbol
  rhs : List Symbol
deriving DecidableEq

/-- Printable form of a production (`Production.toString`). -/
def Production.toStr (p : Production) : String :=
  if p.rhs.length = 0 then
    p.lhs.name ++ " -> " ++ epsStr
  else
    p.lhs.name ++ " -> " ++ String.intercalate " " (p.rhs.map (fun s => s.name))

/-- A grammar: ordered productions (index 0 is the augmented start
production) and the augmented start symbol (`Grammar.ts`, class `Grammar`).
The terminal and non-terminal name sets computed eagerly by the JS
constructor are recovered by `Grammar.terminalsList` / `Grammar.nonTerminalsList`
below; only membership in them is ever consulted. -/
structure Grammar where
  productions : List Production
  startSymbol : Symbol
deriving DecidableEq

/-- Insertion into a JS `Set` embedded as an insertion-ordered list. -/
def setAdd (l : List String) (x : String) : List String :=
  if x ∈ l then l else l ++ [x]

/-- Terminal names of a grammar, as collected by the `Grammar` constructor:
every rhs symbol tagged `TERMINAL`. -/
def Grammar.terminalsList (g : Grammar) : List String :=
  g.productions.foldl
    (fun acc p =>
      p.rhs.foldl
        (fun acc2 s =>
          if s.type = SymbolType.TERMINAL then setAdd acc2 s.name else acc2)
        acc)
    []

/-- Non-terminal names of a grammar, as collected by the `Grammar`
constructor: every lhs name and every rhs symbol tagged `NON_TERMINAL`. -/
def Grammar.nonTerminalsList (g : Grammar) : List String :=
  g.productions.foldl
    (fun acc p =>
      p.rhs.foldl
        (fun acc2 s =>
          if s.type = SymbolType.NON_TERMINAL then setAdd acc2 s.name else acc2)
        (setAdd acc p.lhs.name))
    []

/-- Productions whose lhs name matches the given non-terminal
(`Grammar.getProductionsFor`). -/
def Grammar.getProductionsFor (g : Grammar) (nt : Symbol) : List Production :=
  g.productions.filter (fun p => p.lhs.name = nt.name)

/-- Distinct lhs names of a grammar; the number of them not yet visited
bounds the recursion depth of `first`. -/
def Grammar.lhsNames (g : Grammar) : List String :=
  (g.productions.map (fun p => p.lhs.name)).dedup

/-- Number of lhs names not yet in the visited set; strictly decreases at
each recursive expansion of a non-terminal inside `first`. -/
def unvisitedCount (g : Grammar) (visited : List String) : Nat :=
  (g.lhsNames.filter (fun n => ¬ n ∈ visited)).length

/-- Accumulate the non-epsilon elements of a FIRST result into a set (the
`rhsFirst.forEach` body of `Sets.ts`: epsilon only sets the `hasEpsilon`
flag, everything else is added). -/
def addNonEps (acc f : List String) : List String :=
  f.foldl (fun a t => if t = epsStr then a else setAdd a t) acc

/-- One step of the rhs loop of `first` / `firstOfSequence`,
parameterised by the FIRST computation `fN` used for one symbol.  The
`Bool` component is the `allDeriveEpsilon` flag; a `false` flag models the
early `break` of the source (all later steps are skipped). -/
def rhsStepF (fN : Symbol → List String) (st : List String × Bool) (y : Symbol) :
    List String × Bool :=
  if st.2 then (addNonEps st.1 (fN y), decide (epsStr ∈ fN y)) else st

/-- One step of the production loop of `first`: an empty rhs contributes
epsilon directly, otherwise the rhs loop runs and a surviving
`allDeriveEpsilon` flag contributes epsilon. -/
def prodStepF (fN : Symbol → List String) (acc : List String) (p : Production) :
    List String :=
  if p.rhs.isEmpty then setAdd acc epsStr
  else
    let st := p.rhs.foldl (rhsStepF fN) (acc, true)
    if st.2 then setAdd st.1 epsStr else st.1

/-- Worker for `first` (from `Sets.ts`).  The JS function recurses on a
visited set that grows on every unfolding of an unvisited non-terminal; the
extra `Nat` argument makes that descent structural (the wrapper `first`
passes a bound proved to exceed the recursion depth). -/
def firstN : Nat → Grammar → List String → Symbol → List String
  | 0, _, _, _ => []
  | n + 1, g, visited, symbol =>
    if symbol.type = SymbolType.TERMINAL ∨ symbol.type = SymbolType.END then
      [symbol.name]
    else if symbol.name ∈ visited then
      []
    else
      (g.getProductionsFor symbol).foldl
        (prodStepF (firstN n g (visited ++ [symbol.name]))) []

/-- FIRST of a single symbol (`Sets.ts`, `first`).  The fuel passed in is
one more than the number of unvisited lhs names, which bounds the depth of
the visited-set recursion of the source. -/
def first (g : Grammar) (visited : List String) (symbol : Symbol) : List String :=
  firstN (unvisitedCount g visited + 1) g visited symbol

/-- FIRST of a sequence of symbols (`Sets.ts`, `firstOfSequence`).  Each
element calls `first` with a fresh empty visited set, exactly as the JS
default argument does; the loop body is the same as the rhs loop of
`first`. -/
def firstOfSequence (g : Grammar) (sequence : List Symbol) : List String :=
  if sequence.isEmpty then [epsStr]
  else
    let st := sequence.foldl (rhsStepF (first g [])) ([], true)
    if st.2 then setAdd st.1 epsStr else st.1

/-- An LR(1) item: a production, a dot position, and a lookahead symbol
(`Items.ts`, class `LR1Item`). -/
structure LR1Item where
  production : Production
  dotPosition : Nat
  lookahead : Symbol
deriving DecidableEq

/-- JS `Array.splice(pos, 0, ".")`: insert the dot marker at the given
index (appending at the end when the index is past the end). -/
def insertDotAt : List String → Nat → List String
  | l, 0 => "." :: l
  | [], _ + 1 => ["."]
  | x :: xs, n + 1 => x :: insertDotAt xs n

/-- Printable form of an item (`LR1Item.toString`); this string is the
deduplication key used by `closure` and by state equality. -/
def LR1Item.toStr (it : LR1Item) : String :=
  if it.production.rhs.length = 0 then
    it.production.lhs.name ++ " -> . , " ++ it.lookahead.name
  else
    it.production.lhs.name ++ " -> " ++
      String.intercalate " " (insertDotAt (it.production.rhs.map (fun s => s.name)) it.dotPosition) ++
      " , " ++ it.lookahead.name

/-- Symbol immediately after the dot, or `none` when the item is complete
(`LR1Item.nextSymbol`). -/
def LR1Item.nextSymbol (it : LR1Item) : Option Symbol :=
  it.production.rhs[it.dotPosition]?

/-- Lookahead symbol built by `closure` for a FIRST element: the end marker
gets tag `END`, everything else `TERMINAL`. -/
def mkLookahead (term : String) : Symbol :=
  ⟨term, if term = "$" then SymbolType.END else SymbolType.TERMINAL⟩

/-- Candidate items generated from one item inside the `closure` worklist
loop of `Items.ts`: when the symbol `B` after the dot is a non-terminal,
for every production of `B` (outer loop) and every non-epsilon element of
`FIRST(beta lookahead)` (inner loop, in set order) the item
`B -> . gamma , term`. -/
def genItems (g : Grammar) (it : LR1Item) : List LR1Item :=
  match it.nextSymbol with
  | none => []
  | some B =>
    if B.type = SymbolType.NON_TERMINAL then
      (g.getProductionsFor B).flatMap
        (fun prod =>
          ((firstOfSequence g (it.production.rhs.drop (it.dotPosition + 1) ++ [it.lookahead])).filter
              (fun t => t ≠ epsStr)).map
            (fun term => ⟨prod, 0, mkLookahead term⟩))
    else []

/-- Sequential conditional pushes of candidate items: each candidate whose
printable form is not yet in `processed` is appended to the closure set, to
the queue, and its key to `processed` (`Items.ts`, the body of the worklist
loop). -/
def pushItems : List LR1Item → List LR1Item → List LR1Item → List String →
    List LR1Item × List LR1Item × List String
  | [], cs, newQ, processed => (cs, newQ, processed)
  | c :: rest, cs, newQ, processed =>
    if c.toStr ∈ processed then
      pushItems rest cs newQ processed
    else
      pushItems rest (cs ++ [c]) (newQ ++ [c]) (processed ++ [c.toStr])

/-- Worklist pass of `closure` (`Items.ts`).  The fuel argument bounds the
number of queue pops; `closure` below passes a fuel proved sufficient, so
the `none` (fuel exhausted) branch is never taken there. -/
def closureAux (g : Grammar) : Nat → List LR1Item → List LR1Item → List String →
    Option (List LR1Item)
  | _, [], cs, _ => some cs
  | 0, _ :: _, _, _ => none
  | fuel + 1, it :: rest, cs, processed =>
    match pushItems (genItems g it) cs [] processed with
    | (cs2, newQ, proc2) => closureAux g fuel (rest ++ newQ) cs2 proc2

/-- Initial content of the `processed` key set: the printable forms of the
seed items, deduplicated in order. -/
def initKeys (items : List LR1Item) : List String :=
  items.foldl (fun acc it => setAdd acc it.toStr) []

/-- All symbol names occurring on any rhs of the grammar. -/
def rhsNamesList (g : Grammar) : List String :=
  g.productions.flatMap (fun p => p.rhs.map (fun s => s.name))

/-- Names that can appear as lookaheads of items generated while the given
queue is processed: rhs names of the grammar plus rhs names and lookahead
names of the queued items. -/
def queueNames (g : Grammar) (queue : List LR1Item) : Finset String :=
  (rhsNamesList g).toFinset ∪
    (queue.flatMap (fun it => it.production.rhs.map (fun s => s.name))).toFinset ∪
    (queue.map (fun it => it.lookahead.name)).toFinset

/-- Printable forms of every item the worklist can still generate: dot at
position 0, production from the grammar, lookahead from `queueNames`. -/
def keyUniv (g : Grammar) (queue : List LR1Item) : Finset String :=
  (g.productions.toFinset ×ˢ queueNames g queue).image
    (fun pn => (⟨pn.1, 0, mkLookahead pn.2⟩ : LR1Item).toStr)

/-- Fuel sufficient for `closureAux` to drain its queue: one pop per seed
item plus one per key the worklist can still add. -/
def closureFuel (g : Grammar) (items : List LR1Item) : Nat :=
  items.length + (keyUniv g items \ (initKeys items).toFinset).card

/-- CLOSURE of an item set (`Items.ts`, `closure`).  The source runs a
fixed-point pass whose result is discarded and then the worklist pass whose
result is returned; only the worklist pass is embedded.  The fuel is proved
sufficient below (`closureAux_isSome_of_fuel`), so the `getD` default is
never taken. -/
def closure (g : Grammar) (items : List LR1Item) : List LR1Item :=
  (closureAux g (closureFuel g items) items items (initKeys items)).getD items

/-- Advance the dot of an item over the given symbol (matched by name), or
`none` when the item does not expect it (the `movedItems` collection of
`goto` in `Items.ts`). -/
def moveDot (symbol : Symbol) (it : LR1Item) : Option LR1Item :=
  match it.nextSymbol with
  | some next =>
    if next.name = symbol.name then
      some ⟨it.production, it.dotPosition + 1, it.lookahead⟩
    else none
  | none => none

/-- GOTO over an item set (`Items.ts`, `goto`): advance the dot over every
item expecting the given symbol, then close. -/
def goto (g : Grammar) (items : List LR1Item) (symbol : Symbol) : List LR1Item :=
  closure g (items.filterMap (moveDot symbol))

/-- Association-list embedding of a JS `Map`: update in place when the key
is present, append otherwise (preserving iteration order). -/
def alistSet {K V : Type} [DecidableEq K] (l : List (K × V)) (k : K) (v : V) :
    List (K × V) :=
  if l.any (fun kv => kv.1 = k) then
    l.map (fun kv => if kv.1 = k then (k, v) else kv)
  else l ++ [(k, v)]

/-- Lookup in the association-list embedding of a JS `Map`. -/
def alistGet? {K V : Type} [DecidableEq K] (l : List (K × V)) (k : K) : Option V :=
  (l.find? (fun kv => kv.1 = k)).map (fun kv => kv.2)

/-- Transition table of the canonical collection:
state index → symbol name → state index. -/
abbrev Transitions : Type := List (Nat × List (String × Nat))

/-- Set `transitions.get(i).set(sym, j)`, creating the inner map first when
absent, as `buildCanonicalCollection` does. -/
def trSet (tr : Transitions) (i : Nat) (sym : String) (j : Nat) : Transitions :=
  match alistGet? tr i with
  | none => alistSet tr i (alistSet [] sym j)
  | some row => alistSet tr i (alistSet row sym j)

/-- Lookup `transitions.get(i)?.get(sym)`. -/
def trGet? (tr : Transitions) (i : Nat) (sym : String) : Option Nat :=
  (alistGet? tr i).bind (fun row => alistGet? row sym)

/-- State equality test of `buildCanonicalCollection` (`isSameState`): same
length and every item of the second has its printable form among those of
the first. -/
def isSameState (s1 s2 : List LR1Item) : Bool :=
  s1.length = s2.length &&
    s2.all (fun it => (s1.map (fun x => x.toStr)).contains it.toStr)

/-- The canonical collection: discovered states plus transitions
(`Items.ts`, class `CanonicalCollection`). -/
structure CanonicalCollection where
  states : List (List LR1Item)
  transitions : Transitions
deriving DecidableEq

/-- Distinct symbol names appearing immediately after a dot in a state, in
first-occurrence order (JS `Set` iteration order). -/
def stateSymbols (state : List LR1Item) : List String :=
  state.foldl
    (fun acc it =>
      match it.nextSymbol with
      | some next => setAdd acc next.name
      | none => acc)
    []

/-- First index at or after `j` whose state is `isSameState`-equal to the
target (the linear `for j` search of `buildCanonicalCollection`). -/
def findStateIdx (target : List LR1Item) : List (List LR1Item) → Nat → Option Nat
  | [], _ => none
  | s :: rest, j =>
    if isSameState s target then some j else findStateIdx target rest (j + 1)

/-- Process the transitions of state `i` on one symbol name: compute GOTO,
skip when empty, search existing states with `isSameState`, append a new
state when unseen, and record the transition. -/
def processSymbol (g : Grammar) (i : Nat) (state : List LR1Item) (symName : String)
    (acc : List (List LR1Item) × Transitions × Bool) :
    List (List LR1Item) × Transitions × Bool :=
  match state.find? (fun it => (it.nextSymbol).any (fun n => n.name = symName)) with
  | none => acc
  | some witIt =>
    match witIt.nextSymbol with
    | none => acc
    | some symObj =>
      if (goto g state symObj).isEmpty then acc
      else
        match findStateIdx (goto g state symObj) acc.1 0 with
        | some j => (acc.1, trSet acc.2.1 i symName j, acc.2.2)
        | none =>
          (acc.1 ++ [goto g state symObj], trSet acc.2.1 i symName acc.1.length, true)

/-- Process all outgoing symbols of state `i` (the inner `symbols.forEach`
of `buildCanonicalCollection`). -/
def processState (g : Grammar) (i : Nat) (states : List (List LR1Item))
    (tr : Transitions) (changed : Bool) :
    List (List LR1Item) × Transitions × Bool :=
  (stateSymbols (states.getD i [])).foldl
    (fun acc symName => processSymbol g i (states.getD i []) symName acc)
    (states, tr, changed)

/-- The `while (changed)` / `for i` loop nest of `buildCanonicalCollection`.
The JS `for` condition re-reads `states.length`, so states appended during a
pass are processed in the same pass; when the pass ends with `changed` set,
everything is reprocessed from index 0.  The fuel bounds the number of
`processState` steps; its exhaustion returns the states found so far (the
source instead loops until stable; every theorem below holds for every
fuel). -/
def ccLoop (g : Grammar) : Nat → Nat → List (List LR1Item) → Transitions → Bool →
    CanonicalCollection
  | 0, _, states, tr, _ => ⟨states, tr⟩
  | fuel + 1, i, states, tr, changed =>
    if i < states.length then
      let r := processState g i states tr changed
      ccLoop g fuel (i + 1) r.1 r.2.1 r.2.2
    else if changed then
      ccLoop g fuel 0 states tr false
    else
      ⟨states, tr⟩

/-- Canonical collection construction (`Items.ts`,
`buildCanonicalCollection`).  `none` models the crash of the source on a
grammar with no productions (it reads `productions[0]`). -/
def buildCanonicalCollection (g : Grammar) (fuel : Nat) : Option CanonicalCollection :=
  match g.productions with
  | [] => none
  | startProd :: _ =>
    let startItem : LR1Item := ⟨startProd, 0, ⟨"$", SymbolType.END⟩⟩
    some (ccLoop g fuel 0 [closure g [startItem]] [] false)

/-- Parser actions (`Table.ts`, `Action` with `ActionType`).  `REDUCE`
carries the stringified production plus the lhs name and rhs length used by
the driver; `ERROR` exists in the source type but is never written by
`buildParsingTable`. -/
inductive Action where
  | SHIFT (value : Nat)
  | REDUCE (productionStr : String) (productionLhs : String) (productionRhsLen : Nat)
  | ACCEPT
  | ERROR
deriving DecidableEq

/-- The ACTION/GOTO tables plus the states they were built from
(`Table.ts`, interface `ParsingTable`). -/
structure ParsingTable where
  action : List (Nat × List (String × Action))
  goto : List (Nat × List (String × Nat))
  states : List (List LR1Item)
deriving DecidableEq

/-- The single table cell written by one item of state `i` in
`buildParsingTable`: a SHIFT for a terminal after the dot that has a
transition, ACCEPT for a complete item of the start symbol with lookahead
`$`, a REDUCE for any other complete item.  The conflict check of the
source only logs a warning; the write always goes through. -/
def actionWritesOfItem (g : Grammar) (tr : Transitions) (i : Nat) (it : LR1Item) :
    Option (String × Action) :=
  match it.nextSymbol with
  | some next =>
    if next.type = SymbolType.TERMINAL then
      match trGet? tr i next.name with
      | some j => some (next.name, Action.SHIFT j)
      | none => none
    else none
  | none =>
    if it.production.lhs.name = g.startSymbol.name ∧ it.lookahead.name = "$" then
      some ("$", Action.ACCEPT)
    else
      some (it.lookahead.name,
        Action.REDUCE it.production.toStr it.production.lhs.name it.production.rhs.length)

/-- ACTION row of state `i`: sequential map writes over the items of the
state (later writes overwrite earlier ones, as `Map.set` does). -/
def actionRow (g : Grammar) (tr : Transitions) (i : Nat) (state : List LR1Item) :
    List (String × Action) :=
  state.foldl
    (fun row it =>
      match actionWritesOfItem g tr i it with
      | none => row
      | some kv => alistSet row kv.1 kv.2)
    []

/-- GOTO row of state `i`: every transition of the state whose symbol is
neither a collected terminal name nor `$` (`buildParsingTable`, step 3). -/
def gotoRow (g : Grammar) (tr : Transitions) (i : Nat) : List (String × Nat) :=
  ((alistGet? tr i).getD []).foldl
    (fun row kv =>
      if kv.1 ∈ g.terminalsList ∨ kv.1 = "$" then row
      else alistSet row kv.1 kv.2)
    []

/-- Rows of both tables, one per state index. -/
def tableRows (g : Grammar) (tr : Transitions) :
    List (List LR1Item) → Nat →
      List (Nat × List (String × Action)) × List (Nat × List (String × Nat))
  | [], _ => ([], [])
  | st :: rest, i =>
    let r := tableRows g tr rest (i + 1)
    ((i, actionRow g tr i st) :: r.1, (i, gotoRow g tr i) :: r.2)

/-- Assemble the parsing table from a canonical collection (the per-state
loop of `buildParsingTable`). -/
def buildPTfromCC (g : Grammar) (cc : CanonicalCollection) : ParsingTable :=
  ⟨(tableRows g cc.transitions cc.states 0).1,
   (tableRows g cc.transitions cc.states 0).2, cc.states⟩

/-- ACTION and GOTO table construction (`Table.ts`, `buildParsingTable`).
The fuel is passed to the canonical collection loop. -/
def buildParsingTable (g : Grammar) (fuel : Nat) : Option ParsingTable :=
  (buildCanonicalCollection g fuel).map (buildPTfromCC g)

/-- Lookup `table.action.get(s)?.get(tok)`. -/
def actionLookup (t : ParsingTable) (s : Nat) (tok : String) : Option Action :=
  (alistGet? t.action s).bind (fun row => alistGet? row tok)

/-- Lookup `table.goto.get(s)?.get(sym)`. -/
def gotoLookup (t : ParsingTable) (s : Nat) (sym : String) : Option Nat :=
  (alistGet? t.goto s).bind (fun row => alistGet? row sym)

/-- One step of the parser trace (`Parser.ts`, interface `ParseStep`). -/
structure ParseStep where
  step : Nat
  stack : List String
  input : List String
  action : String
deriving DecidableEq

/-- Parse tree node (`Parser.ts`, interface `ParseNode`). -/
inductive ParseNode where
  | mk (symbol : String) (children : List ParseNode)

/-- Symbol label of a parse node. -/
def ParseNode.symbol : ParseNode → String
  | .mk s _ => s

/-- Children of a parse node. -/
def ParseNode.children : ParseNode → List ParseNode
  | .mk _ c => c

/-- Driver result (`Parser.ts`, interface `ParseResult`). -/
structure ParseResult where
  steps : List ParseStep
  accepted : Bool
  error : Option String
  parseTree : Option ParseNode

/-- The mixed parse stack of the driver: state numbers interleaved with
symbol names, top at the end of the list. -/
inductive StackEntry where
  | st (n : Nat)
  | sym (s : String)
deriving DecidableEq

/-- Stringification of a stack entry as JS does for the trace snapshot. -/
def entryToString : StackEntry → String
  | .st n => toString n
  | .sym s => s

/-- Driver loop state: mixed stack, node stack, input cursor, trace
accumulated so far, step counter. -/
structure LoopState where
  stack : List StackEntry
  nodeStack : List ParseNode
  ip : Nat
  steps : List ParseStep
  stepCount : Nat

/-- Tokenisation of the driver input (`Parser.ts`): trim, split on
whitespace, append the sentinel `$`, drop empty pieces. -/
def tokenize (input : String) : List String :=
  ((jsSplitPred (jsTrim input) (fun c => c.isWhitespace)) ++ ["$"]).filter
    (fun t => t.length > 0)

/-- Pop `n` entries off the mixed stack one at a time; popping an empty
stack is a no-op, exactly as `Array.pop` is. -/
def popN : Nat → List StackEntry → List StackEntry
  | 0, l => l
  | n + 1, l => popN n l.dropLast

/-- Pop up to `n` parse nodes, returning them in pop order (top first)
together with the remaining node stack; an `undefined` pop result is
skipped, as the `if (child)` guard of the source does. -/
def popNodes : Nat → List ParseNode → List ParseNode × List ParseNode
  | 0, ns => ([], ns)
  | n + 1, ns =>
    match ns.getLast? with
    | some child =>
      let r := popNodes n ns.dropLast
      (child :: r.1, r.2)
    | none => popNodes n ns

/-- Expected-terminals list reported in a syntax error: the keys of the
ACTION row of the current top-of-stack value (empty when that value is not
a valid state index). -/
def expectedKeys (table : ParsingTable) (topState? : Option Nat) : List String :=
  match topState? with
  | some s => ((alistGet? table.action s).getD []).map (fun kv => kv.1)
  | none => []

/-- One iteration of the `while (true)` driver loop (`Parser.ts`,
`parseString`).  The fuel bounds the number of iterations; its exhaustion
(`none`) models the cases in which the source loop never returns (for
example an `ERROR`-typed action, which the source if/else chain silently
skips forever). -/
def parseLoop (table : ParsingTable) (inputTokens : List String) :
    Nat → LoopState → Option ParseResult
  | 0, _ => none
  | fuel + 1, σ =>
    let topEntry := σ.stack.getLast?
    let topState? : Option Nat :=
      match topEntry with
      | some (.st n) => some n
      | _ => none
    let currentToken? := inputTokens[σ.ip]?
    let action? : Option Action :=
      match topState?, currentToken? with
      | some s, some tok => actionLookup table s tok
      | _, _ => none
    let stepLog : ParseStep :=
      ⟨σ.stepCount, σ.stack.map entryToString, inputTokens.drop σ.ip, ""⟩
    match action? with
    | none =>
      let msg := "Syntax Error at " ++ sq ++ (currentToken?.getD "undefined") ++ sq ++
        " in state " ++
        (match topEntry with
         | some e => entryToString e
         | none => "undefined") ++
        ". Expected: " ++ String.intercalate ", " (expectedKeys table topState?)
      some ⟨σ.steps ++ [{ stepLog with action := "ERROR" }], false, some msg, none⟩
    | some (Action.SHIFT nextState) =>
      let tok := currentToken?.getD "undefined"
      parseLoop table inputTokens fuel
        ⟨σ.stack ++ [.sym tok, .st nextState],
         σ.nodeStack ++ [.mk tok []],
         σ.ip + 1,
         σ.steps ++ [{ stepLog with action := "Shift " ++ tok }],
         σ.stepCount + 1⟩
    | some (Action.REDUCE pstr lhs len) =>
      let steps2 := σ.steps ++ [{ stepLog with action := "Reduce by " ++ pstr }]
      let stack2 := popN (2 * len) σ.stack
      let pr := popNodes len σ.nodeStack
      let children := pr.1.reverse
      let lhsNode : ParseNode := .mk lhs (if len = 0 then [.mk epsStr []] else children)
      let nodeStack2 := pr.2 ++ [lhsNode]
      let nextState? : Option Nat :=
        match stack2.getLast? with
        | some (.st n) => gotoLookup table n lhs
        | _ => none
      match nextState? with
      | none =>
        let msg := "GOTO Error: No transition from state " ++
          (match stack2.getLast? with
           | some e => entryToString e
           | none => "undefined") ++
          " on symbol " ++ lhs
        some ⟨steps2, false, some msg, none⟩
      | some nextState =>
        parseLoop table inputTokens fuel
          ⟨stack2 ++ [.sym lhs, .st nextState], nodeStack2, σ.ip, steps2,
           σ.stepCount + 1⟩
    | some Action.ACCEPT =>
      some ⟨σ.steps ++ [{ stepLog with action := "ACCEPT" }], true, none,
        σ.nodeStack.getLast?⟩
    | some Action.ERROR =>
      parseLoop table inputTokens fuel { σ with stepCount := σ.stepCount + 1 }

/-- Table-driven shift/reduce driver (`Parser.ts`, `parseString`).  The
grammar argument is accepted and ignored, exactly as the `_grammar`
parameter of the source is. -/
def parseString (input : String) (_grammar : Grammar) (table : ParsingTable)
    (fuel : Nat) : Option ParseResult :=
  parseLoop table (tokenize input) fuel ⟨[.st 0], [], 0, [], 0⟩

/-- Non-empty lines of the grammar text (`Table.ts`, `parseGrammar`). -/
def gLines (input : String) : List String :=
  (jsSplit input "\n").filter (fun l => (jsTrim l).length > 0)

/-- Trimmed text before the first `->` of a line (first pass of
`parseGrammar`, which collects every such name as a non-terminal). -/
def lhsOf (line : String) : String :=
  jsTrim ((jsSplit line "->").headD "")

/-- Split of a line by the arrow token, as the JS destructuring
`const [lhsStr, rhsStr] = line.split("->")` with the falsy guard does:
`none` when either of the first two pieces is missing or empty (pieces
beyond the second are discarded). -/
def lineParts (line : String) : Option (String × String) :=
  match (jsSplit line "->")[0]?, (jsSplit line "->")[1]? with
  | some a, some b => if a = "" ∨ b = "" then none else some (a, b)
  | _, _ => none

/-- Parse one rhs alternative into symbols: whitespace-split, skip the
epsilon spellings, classify by membership in the collected lhs names. -/
def parseRhsAlt (ntNames : List String) (opt : String) : List Symbol :=
  (jsSplitPred (jsTrim opt) (fun c => c.isWhitespace)).foldl
    (fun rhs s =>
      if s = epsStr ∨ s = sq ++ sq ∨ s = "\"\"" ∨ s = "" then rhs
      else rhs ++ [⟨s, if s ∈ ntNames then SymbolType.NON_TERMINAL
                       else SymbolType.TERMINAL⟩])
    []

/-- Second pass of `parseGrammar`: accumulate productions line by line,
remembering the lhs of line 0 as the original start symbol.  Lines that do
not split into two non-empty parts around `->` are skipped. -/
def parseGrammarLoop (ntNames : List String) :
    List String → Nat → Option Symbol → List Production →
      Option Symbol × List Production
  | [], _, oss, prods => (oss, prods)
  | line :: rest, idx, oss, prods =>
    match lineParts line with
    | none => parseGrammarLoop ntNames rest (idx + 1) oss prods
    | some ab =>
      parseGrammarLoop ntNames rest (idx + 1)
        (if idx = 0 then some ⟨jsTrim ab.1, SymbolType.NON_TERMINAL⟩ else oss)
        (prods ++ (jsSplit ab.2 "|").map
          (fun opt => Production.mk ⟨jsTrim ab.1, SymbolType.NON_TERMINAL⟩
            (parseRhsAlt ntNames opt)))

/-- Textual grammar parser and augmenter (`Table.ts`, `parseGrammar`).
`none` models the single `throw new Error("Empty grammar")` of the source.
The augmented start symbol is the original start name with one apostrophe
appended, and the augmented production is inserted at index 0. -/
def parseGrammar (input : String) : Option Grammar :=
  match parseGrammarLoop ((gLines input).foldl (fun acc l => setAdd acc (lhsOf l)) [])
      (gLines input) 0 none [] with
  | (none, _) => none
  | (some orig, prods) =>
    some ⟨⟨⟨orig.name ++ sq, SymbolType.NON_TERMINAL⟩, [orig]⟩ :: prods,
      ⟨orig.name ++ sq, SymbolType.NON_TERMINAL⟩⟩

/-- A symbol the FIRST definition treats as atomic: a terminal or the end
marker. -/
def termLike (X : Symbol) : Prop :=
  X.type = SymbolType.TERMINAL ∨ X.type = SymbolType.END

instance (X : Symbol) : Decidable (termLike X) := by
  unfold termLike; infer_instance

/-- Reference definition of FIRST, modelled from the specification words
(section 4.2): FIRST of a terminal or `$` is its own name; for a
non-terminal, each production contributes `FIRST(Y1) \ eps`, continuing
through nullable prefixes, and contributes `eps` exactly when every rhs
symbol admits `eps` (including the empty rhs).  `FirstRef g X s` states
that `s` is a member of the reference FIRST set of `X`. -/
inductive FirstRef (g : Grammar) : Symbol → String → Prop where
  | base (X : Symbol) : termLike X → FirstRef g X X.name
  | deriv (X : Symbol) (p : Production) (i : Nat) (s : String) :
      ¬ termLike X → p ∈ g.productions → p.lhs.name = X.name →
      ∀ hi : i < p.rhs.length,
      (∀ j, ∀ hj : j < p.rhs.length, j < i → FirstRef g (p.rhs.get ⟨j, hj⟩) epsStr) →
      FirstRef g (p.rhs.get ⟨i, hi⟩) s → s ≠ epsStr →
      FirstRef g X s
  | eps (X : Symbol) (p : Production) :
      ¬ termLike X → p ∈ g.productions → p.lhs.name = X.name →
      (∀ j, ∀ hj : j < p.rhs.length, FirstRef g (p.rhs.get ⟨j, hj⟩) epsStr) →
      FirstRef g X epsStr

/-- Order-insensitive equality of item sets, as the specification uses for
states and closures. -/
def itemSetEq (a b : List LR1Item) : Prop :=
  (∀ it ∈ a, it ∈ b) ∧ (∀ it ∈ b, it ∈ a)

instance (a b : List LR1Item) : Decidable (itemSetEq a b) := by
  unfold itemSetEq; infer_instance

/-- Closedness of a set of items under the LR(1) expansion rule, modelled
from the specification words (section 4.4): for every item
`A -> alpha . B beta , a` in the set, every production `B -> gamma` and
every non-epsilon `b` in `FIRST(beta a)`, the item `B -> . gamma , b` is in
the set. -/
def closedUnderRule (g : Grammar) (T : LR1Item → Prop) : Prop :=
  ∀ it, T it → ∀ B, it.nextSymbol = some B → B.type = SymbolType.NON_TERMINAL →
    ∀ p ∈ g.productions, p.lhs.name = B.name →
      ∀ b ∈ firstOfSequence g
          (it.production.rhs.drop (it.dotPosition + 1) ++ [it.lookahead]),
        b ≠ epsStr → T ⟨p, 0, mkLookahead b⟩

/-- The value of the last map write with the given key in a write sequence
(`Map.set` semantics: later writes win). -/
def lastWrite (writes : List (String × Action)) (a : String) : Option Action :=
  ((writes.filter (fun kv => kv.1 = a)).getLast?).map (fun kv => kv.2)

/-- Invariant of the canonical collection loop: states are pairwise not
set-equal, duplicate-free, and free of epsilon lookaheads. -/
def CCInv (states : List (List LR1Item)) : Prop :=
  states.Pairwise (fun a b => ¬ itemSetEq a b) ∧
    (∀ s ∈ states, s.Nodup) ∧
    (∀ s ∈ states, ∀ it ∈ s, it.lookahead.name ≠ epsStr)

/-- Fallback grammar used only under `Option.getD` in concrete examples. -/
def dfltGrammar : Grammar := ⟨[], ⟨"", SymbolType.TERMINAL⟩⟩

/-- Fallback production used only under `getD` in concrete examples. -/
def dfltProd : Production := ⟨⟨"", SymbolType.TERMINAL⟩, []⟩

/-- Fallback item used only under `getD` in concrete examples. -/
def dfltItem : LR1Item := ⟨dfltProd, 0, ⟨"", SymbolType.TERMINAL⟩⟩

/-- Fallback collection used only under `Option.getD` in concrete examples. -/
def dfltCC : CanonicalCollection := ⟨[], []⟩

/-- Fallback table used only under `Option.getD` in concrete examples. -/
def dfltTable : ParsingTable := ⟨[], [], []⟩

/-- Left-recursive epsilon grammar `A -> A b | ε` on which the visited-set
FIRST computation loses the terminal `b`. -/
def cProdAb : Production :=
  ⟨⟨"A", SymbolType.NON_TERMINAL⟩,
    [⟨"A", SymbolType.NON_TERMINAL⟩, ⟨"b", SymbolType.TERMINAL⟩]⟩

/-- The epsilon production of the left-recursive example grammar. -/
def cProdAe : Production := ⟨⟨"A", SymbolType.NON_TERMINAL⟩, []⟩

/-- The left-recursive example grammar itself. -/
def cGrammarRec : Grammar := ⟨[cProdAb, cProdAe], ⟨"A", SymbolType.NON_TERMINAL⟩⟩

/-- Production `A -> B` of the dot-named-terminal example grammar. -/
def cProdA2 : Production :=
  ⟨⟨"A", SymbolType.NON_TERMINAL⟩, [⟨"B", SymbolType.NON_TERMINAL⟩]⟩

/-- Production `B -> .` (the terminal is literally named `.`) of the
dot-named-terminal example grammar. -/
def cProdB2 : Production :=
  ⟨⟨"B", SymbolType.NON_TERMINAL⟩, [⟨".", SymbolType.TERMINAL⟩]⟩

/-- Grammar with a terminal named `.`, which collides with the dot marker
of the printable item form used as deduplication key. -/
def cGrammarDot : Grammar := ⟨[cProdA2, cProdB2], ⟨"A", SymbolType.NON_TERMINAL⟩⟩

/-- Seed item `B -> " . " . , $` (dot after the `.` terminal). -/
def cItemBDot : LR1Item := ⟨cProdB2, 1, ⟨"$", SymbolType.END⟩⟩

/-- Seed item `A -> . B , $`. -/
def cItemA : LR1Item := ⟨cProdA2, 0, ⟨"$", SymbolType.END⟩⟩

/-- Seed item set of the dot-grammar closure counterexample. -/
def cSeedDot : List LR1Item := [cItemBDot, cItemA]

/-- The item `B -> . " . " , $` that the expansion rule requires but whose
printable form collides with `cItemBDot`. -/
def cMissingDot : LR1Item := ⟨cProdB2, 0, ⟨"$", SymbolType.END⟩⟩

/-- Grammar with a reduce-reduce conflict (`A -> a` and `B -> a` complete
in the same state on `$`). -/
def exG1 : Grammar := (parseGrammar "S -> A | B\nA -> a\nB -> a").getD dfltGrammar

/-- Canonical collection of the reduce-reduce example. -/
def exCC1 : CanonicalCollection := (buildCanonicalCollection exG1 100).getD dfltCC

/-- Parsing table of the reduce-reduce example. -/
def exT1 : ParsingTable := (buildParsingTable exG1 100).getD dfltTable

/-- Grammar `S -> S | a`, whose accept state also contains the complete
item `S -> S . , $`, overwriting ACCEPT on `$`. -/
def exG2 : Grammar := (parseGrammar "S -> S | a").getD dfltGrammar

/-- Canonical collection of the `S -> S | a` example. -/
def exCC2 : CanonicalCollection := (buildCanonicalCollection exG2 100).getD dfltCC

/-- Parsing table of the `S -> S | a` example. -/
def exT2 : ParsingTable := (buildParsingTable exG2 100).getD dfltTable

/-- Tiny single-production grammar `S -> a`. -/
def exGSmall : Grammar := (parseGrammar "S -> a").getD dfltGrammar

/-- Canonical collection of the tiny grammar. -/
def exCCSmall : CanonicalCollection :=
  (buildCanonicalCollection exGSmall 100).getD dfltCC

/-- Grammar text whose start symbol name already ends in an apostrophe
variant: the augmented name collides with the existing `S` + apostrophe
non-terminal. -/
def exInput5 : String := "S -> S" ++ sq ++ "\nS" ++ sq ++ " -> a"

/-- Hand-written table used to exercise a single reduce step of the
driver. -/
def exT3 : ParsingTable :=
  ⟨[(0, [("a", Action.SHIFT 1)]), (1, [("$", Action.REDUCE "S -> a" "S" 1)]),
     (2, [("$", Action.ACCEPT)])],
   [(0, [("S", 2)])], []⟩

/-- Driver state just before the reduce step of the tiny example: `a` has
been shifted. -/
def exSigma : LoopState :=
  ⟨[StackEntry.st 0, StackEntry.sym "a", StackEntry.st 1],
   [ParseNode.mk "a" []], 1, [], 1⟩

/-- Membership in a `setAdd` result. -/
theorem mem_setAdd {l : List String} {x t : String} :
    t ∈ setAdd l x ↔ t ∈ l ∨ t = x := by
  unfold setAdd
  split
  · rename_i h
    constructor
    · exact fun h2 => Or.inl h2
    · rintro (h2 | rfl)
      · exact h2
      · exact h
  · simp [List.mem_append]

/-- Elements of the non-epsilon accumulation fold over a FIRST result. -/
theorem mem_addNonEps {f acc : List String} {s : String} :
    s ∈ addNonEps acc f → s ∈ acc ∨ (s ∈ f ∧ s ≠ epsStr) := by
  unfold addNonEps
  induction f generalizing acc with
  | nil => intro h; exact Or.inl h
  | cons y ys ih =>
    intro h
    simp only [List.foldl_cons] at h
    rcases ih h with h2 | h2
    · by_cases hy : y = epsStr
      · rw [if_pos hy] at h2; exact Or.inl h2
      · rw [if_neg hy] at h2
        rcases mem_setAdd.mp h2 with h3 | rfl
        · exact Or.inl h3
        · exact Or.inr ⟨List.mem_cons_self _ _, hy⟩
    · exact Or.inr ⟨List.mem_cons_of_mem _ h2.1, h2.2⟩

/-- A rhs fold whose flag is already false is the identity (the early
`break` of the source). -/
theorem rhsFold_skip (fN : Symbol → List String) (l : List Symbol)
    (st : List String × Bool) (h : st.2 = false) :
    l.foldl (rhsStepF fN) st = st := by
  induction l with
  | nil => rfl
  | cons y ys ih =>
    simp only [List.foldl_cons, rhsStepF, h]
    simpa [h] using ih

/-- A surviving `allDeriveEpsilon` flag after the rhs fold certifies that
it was set initially and that every processed symbol admits epsilon. -/
theorem rhsFold_flag (fN : Symbol → List String) :
    ∀ (l : List Symbol) (st : List String × Bool),
      (l.foldl (rhsStepF fN) st).2 = true →
      st.2 = true ∧ ∀ y ∈ l, epsStr ∈ fN y := by
  intro l
  induction l with
  | nil => intro st h; exact ⟨h, by simp⟩
  | cons y ys ih =>
    intro st h
    by_cases hb : st.2 = true
    · simp only [List.foldl_cons, rhsStepF, hb, if_true] at h
      have h2 := ih _ h
      simp only [decide_eq_true_eq] at h2
      refine ⟨hb, ?_⟩
      intro z hz
      rcases List.mem_cons.mp hz with rfl | hz2
      · exact h2.1
      · exact h2.2 z hz2
    · rw [rhsFold_skip fN (y :: ys) st (Bool.eq_false_iff.mpr hb ▸ rfl)] at h
      · exact absurd h hb

/-- Every element of the set accumulated by the rhs fold is either initial
or comes from the FIRST of the symbol at some position `i` whose strict
prefix is all nullable (under `fN`). -/
theorem rhsFold_mem (fN : Symbol → List String) :
    ∀ (l : List Symbol) (st : List String × Bool) (s : String),
      s ∈ (l.foldl (rhsStepF fN) st).1 →
      s ∈ st.1 ∨
        (st.2 = true ∧ s ≠ epsStr ∧
          ∃ i, ∃ hi : i < l.length, s ∈ fN (l.get ⟨i, hi⟩) ∧
            ∀ j, ∀ hj : j < l.length, j < i → epsStr ∈ fN (l.get ⟨j, hj⟩)) := by
  intro l
  induction l with
  | nil => intro st s h; exact Or.inl h
  | cons y ys ih =>
    intro st s h
    by_cases hb : st.2 = true
    · simp only [List.foldl_cons, rhsStepF, hb, if_true] at h
      rcases ih _ _ h with h2 | h2
      · rcases mem_addNonEps h2 with h3 | h3
        · exact Or.inl h3
        · refine Or.inr ⟨hb, h3.2, 0, by simp, h3.1, ?_⟩
          intro j hj hj0
          omega
      · obtain ⟨hflag, hne, i, hi, hmem, hpre⟩ := h2
        simp only [decide_eq_true_eq] at hflag
        refine Or.inr ⟨hb, hne, i + 1, by simpa using Nat.succ_lt_succ hi, hmem, ?_⟩
        intro j hj hjlt
        cases j with
        | zero => exact hflag
        | succ j2 =>
          have hj2 : j2 < ys.length := by simpa using Nat.lt_of_succ_lt_succ hj
          exact hpre j2 hj2 (Nat.lt_of_succ_lt_succ hjlt)
    · rw [rhsFold_skip fN (y :: ys) st (Bool.eq_false_iff.mpr hb ▸ rfl)] at h
      exact Or.inl h

/-- Every element produced by the production fold of `first` is either
initial, or epsilon justified by a production all of whose rhs symbols are
nullable (under `fN`), or a non-epsilon element of the FIRST of the symbol
at a position with an all-nullable strict prefix. -/
theorem prodFold_mem (fN : Symbol → List String) :
    ∀ (prods : List Production) (acc : List String) (s : String),
      s ∈ prods.foldl (prodStepF fN) acc →
      s ∈ acc ∨
        ∃ p ∈ prods,
          (s = epsStr ∧ ∀ j, ∀ hj : j < p.rhs.length, epsStr ∈ fN (p.rhs.get ⟨j, hj⟩)) ∨
          (s ≠ epsStr ∧ ∃ i, ∃ hi : i < p.rhs.length, s ∈ fN (p.rhs.get ⟨i, hi⟩) ∧
            ∀ j, ∀ hj : j < p.rhs.length, j < i → epsStr ∈ fN (p.rhs.get ⟨j, hj⟩)) := by
  intro prods
  induction prods with
  | nil => intro acc s h; exact Or.inl h
  | cons p ps ih =>
    intro acc s h
    simp only [List.foldl_cons] at h
    rcases ih _ _ h with h2 | h2
    · -- the element was already produced by the step on p (or initial)
      unfold prodStepF at h2
      by_cases he : p.rhs.isEmpty
      · rw [if_pos he] at h2
        rcases mem_setAdd.mp h2 with h3 | rfl
        · exact Or.inl h3
        · refine Or.inr ⟨p, List.mem_cons_self _ _, Or.inl ⟨rfl, ?_⟩⟩
          intro j hj
          rw [List.isEmpty_iff_length_eq_zero] at he
          omega
      · rw [if_neg he] at h2
        by_cases hflag : (p.rhs.foldl (rhsStepF fN) (acc, true)).2 = true
        · rw [if_pos hflag] at h2
          rcases mem_setAdd.mp h2 with h3 | rfl
          · rcases rhsFold_mem fN _ _ _ h3 with h4 | h4
            · exact Or.inl h4
            · exact Or.inr ⟨p, List.mem_cons_self _ _, Or.inr ⟨h4.2.1, h4.2.2⟩⟩
          · have h4 := rhsFold_flag fN _ _ hflag
            refine Or.inr ⟨p, List.mem_cons_self _ _, Or.inl ⟨rfl, ?_⟩⟩
            intro j hj
            exact h4.2 _ (List.get_mem _ _ _)
        · rw [if_neg hflag] at h2
          rcases rhsFold_mem fN _ _ _ h2 with h4 | h4
          · exact Or.inl h4
          · exact Or.inr ⟨p, List.mem_cons_self _ _, Or.inr ⟨h4.2.1, h4.2.2⟩⟩
    · obtain ⟨q, hq, hrest⟩ := h2
      exact Or.inr ⟨q, List.mem_cons_of_mem _ hq, hrest⟩

/-- Soundness of the FIRST worker against the reference definition: every
element it computes is in the reference FIRST set, at every fuel and with
every visited set (the visited cut can only remove elements). -/
theorem firstN_sound :
    ∀ (n : Nat) (g : Grammar) (visited : List String) (X : Symbol) (s : String),
      s ∈ firstN n g visited X → FirstRef g X s := by
  intro n
  induction n with
  | zero => intro g visited X s h; simp [firstN] at h
  | succ n ih =>
    intro g visited X s h
    unfold firstN at h
    by_cases ht : X.type = SymbolType.TERMINAL ∨ X.type = SymbolType.END
    · rw [if_pos ht] at h
      rcases List.mem_singleton.mp h with rfl
      exact FirstRef.base X ht
    · rw [if_neg ht] at h
      by_cases hv : X.name ∈ visited
      · rw [if_pos hv] at h; simp at h
      · rw [if_neg hv] at h
        rcases prodFold_mem _ _ _ _ h with h2 | h2
        · simp at h2
        · obtain ⟨p, hp, hcase⟩ := h2
          have hp2 : p ∈ g.productions ∧ p.lhs.name = X.name := by
            have := List.mem_filter.mp hp
            exact ⟨this.1, by simpa using this.2⟩
          rcases hcase with ⟨rfl, hall⟩ | ⟨hne, i, hi, hmem, hpre⟩
          · exact FirstRef.eps X p ht hp2.1 hp2.2
              (fun j hj => ih g _ _ _ (hall j hj))
          · exact FirstRef.deriv X p i s ht hp2.1 hp2.2 hi
              (fun j hj hjlt => ih g _ _ _ (hpre j hj hjlt))
              (ih g _ _ _ hmem) hne

/-- Soundness of `first` itself. -/
theorem first_sound (g : Grammar) (visited : List String) (X : Symbol)
    (s : String) (h : s ∈ first g visited X) : FirstRef g X s :=
  firstN_sound _ g visited X s h

/-- Range of the FIRST worker: every element is the name of the queried
symbol, epsilon, or the name of some rhs symbol of the grammar. -/
theorem firstN_range :
    ∀ (n : Nat) (g : Grammar) (visited : List String) (X : Symbol) (s : String),
      s ∈ firstN n g visited X →
      s = X.name ∨ s = epsStr ∨ s ∈ rhsNamesList g := by
  intro n
  induction n with
  | zero => intro g visited X s h; simp [firstN] at h
  | succ n ih =>
    intro g visited X s h
    unfold firstN at h
    by_cases ht : X.type = SymbolType.TERMINAL ∨ X.type = SymbolType.END
    · rw [if_pos ht] at h
      exact Or.inl (List.mem_singleton.mp h)
    · rw [if_neg ht] at h
      by_cases hv : X.name ∈ visited
      · rw [if_pos hv] at h; simp at h
      · rw [if_neg hv] at h
        rcases prodFold_mem _ _ _ _ h with h2 | h2
        · simp at h2
        · obtain ⟨p, hp, hcase⟩ := h2
          have hp2 : p ∈ g.productions := (List.mem_filter.mp hp).1
          rcases hcase with ⟨rfl, _⟩ | ⟨hne, i, hi, hmem, _⟩
          · exact Or.inr (Or.inl rfl)
          · rcases ih g _ _ _ hmem with h3 | h3 | h3
            · refine Or.inr (Or.inr ?_)
              rw [h3]
              unfold rhsNamesList
              simp only [List.mem_flatMap]
              exact ⟨p, hp2, List.mem_map.mpr ⟨_, List.get_mem _ _ _, rfl⟩⟩
            · exact Or.inr (Or.inl h3)
            · exact Or.inr (Or.inr h3)

/-- Range of `firstOfSequence`: every element is epsilon, the name of a
sequence element, or the name of some rhs symbol of the grammar. -/
theorem firstOfSequence_range (g : Grammar) (sequence : List Symbol) (s : String)
    (h : s ∈ firstOfSequence g sequence) :
    s = epsStr ∨ s ∈ sequence.map (fun y => y.name) ∨ s ∈ rhsNamesList g := by
  unfold firstOfSequence at h
  by_cases he : sequence.isEmpty
  · rw [if_pos he] at h
    exact Or.inl (List.mem_singleton.mp h)
  · rw [if_neg he] at h
    have hcore : ∀ s2 ∈ (sequence.foldl (rhsStepF (first g [])) ([], true)).1,
        s2 = epsStr ∨ s2 ∈ sequence.map (fun y => y.name) ∨ s2 ∈ rhsNamesList g := by
      intro s2 h2
      rcases rhsFold_mem _ _ _ _ h2 with h3 | h3
      · simp at h3
      · obtain ⟨_, hne, i, hi, hmem, _⟩ := h3
        rcases firstN_range _ g _ _ _ hmem with h4 | h4 | h4
        · refine Or.inr (Or.inl ?_)
          rw [h4]
          exact List.mem_map.mpr ⟨_, List.get_mem _ _ _, rfl⟩
        · exact Or.inl h4
        · exact Or.inr (Or.inr h4)
    by_cases hflag : (sequence.foldl (rhsStepF (first g [])) ([], true)).2 = true
    · rw [if_pos hflag] at h
      rcases mem_setAdd.mp h with h2 | rfl
      · exact hcore _ h2
      · exact Or.inl rfl
    · rw [if_neg hflag] at h
      exact hcore _ h

/-- Membership in the deduplicated initial key set. -/
theorem mem_initKeys {items : List LR1Item} {k : String} :
    k ∈ initKeys items ↔ k ∈ items.map (fun x => x.toStr) := by
  unfold initKeys
  have core : ∀ (l : List LR1Item) (acc : List String),
      k ∈ l.foldl (fun acc it => setAdd acc it.toStr) acc ↔
        k ∈ acc ∨ k ∈ l.map (fun x => x.toStr) := by
    intro l
    induction l with
    | nil => intro acc; simp
    | cons x xs ih =>
      intro acc
      simp only [List.foldl_cons, ih, mem_setAdd, List.map_cons, List.mem_cons]
      tauto
  simpa using core items []

/-- Full characterisation of one `pushItems` run: it appends some batch of
fresh candidates to the closure set, the queue, and (as keys) the processed
set; the batch keys are pairwise distinct and fresh, and afterwards every
candidate key is processed. -/
theorem pushItems_spec :
    ∀ (cands cs newQ : List LR1Item) (proc : List String),
      ∃ batch : List LR1Item,
        pushItems cands cs newQ proc =
          (cs ++ batch, newQ ++ batch, proc ++ batch.map (fun d => d.toStr)) ∧
        (∀ d ∈ batch, d ∈ cands) ∧
        (batch.map (fun d => d.toStr)).Nodup ∧
        (∀ d ∈ batch, d.toStr ∉ proc) ∧
        (∀ c ∈ cands, c.toStr ∈ proc ++ batch.map (fun d => d.toStr)) := by
  intro cands
  induction cands with
  | nil =>
    intro cs newQ proc
    exact ⟨[], by simp [pushItems], by simp, by simp, by simp, by simp⟩
  | cons c rest ih =>
    intro cs newQ proc
    by_cases hk : c.toStr ∈ proc
    · obtain ⟨batch, heq, hsub, hnd, hfresh, hcov⟩ := ih cs newQ proc
      refine ⟨batch, ?_, ?_, hnd, hfresh, ?_⟩
      · simpa [pushItems, hk] using heq
      · exact fun d hd => List.mem_cons_of_mem _ (hsub d hd)
      · intro x hx
        rcases List.mem_cons.mp hx with rfl | hx2
        · exact List.mem_append.mpr (Or.inl hk)
        · exact hcov x hx2
    · obtain ⟨batch, heq, hsub, hnd, hfresh, hcov⟩ :=
        ih (cs ++ [c]) (newQ ++ [c]) (proc ++ [c.toStr])
      refine ⟨c :: batch, ?_, ?_, ?_, ?_, ?_⟩
      · simp only [pushItems, hk, if_neg]
        rw [heq]
        simp
      · intro d hd
        rcases List.mem_cons.mp hd with rfl | hd2
        · exact List.mem_cons_self _ _
        · exact List.mem_cons_of_mem _ (hsub d hd2)
      · simp only [List.map_cons, List.nodup_cons]
        refine ⟨?_, hnd⟩
        intro hmem
        obtain ⟨d, hd, hds⟩ := List.mem_map.mp hmem
        have := hfresh d hd
        simp [hds] at this
      · intro d hd
        rcases List.mem_cons.mp hd with rfl | hd2
        · exact hk
        · intro hdp
          exact hfresh d hd2 (List.mem_append.mpr (Or.inl hdp))
      · intro x hx
        rcases List.mem_cons.mp hx with rfl | hx2
        · simp
        · have := hcov x hx2
          simpa [List.mem_append, List.mem_cons] using this

/-- Structure of a generated candidate item: the expansion premises of the
LR(1) rule as implemented (non-terminal after the dot, a production of it,
a non-epsilon member of FIRST of the tail extended by the lookahead). -/
theorem genItems_mem {g : Grammar} {it c : LR1Item} :
    c ∈ genItems g it ↔
      ∃ B, it.nextSymbol = some B ∧ B.type = SymbolType.NON_TERMINAL ∧
        ∃ prod ∈ g.productions, prod.lhs.name = B.name ∧
          ∃ term, term ∈ firstOfSequence g
              (it.production.rhs.drop (it.dotPosition + 1) ++ [it.lookahead]) ∧
            term ≠ epsStr ∧ c = ⟨prod, 0, mkLookahead term⟩ := by
  cases hnext : it.nextSymbol with
  | none => simp [genItems, hnext]
  | some B =>
    by_cases hB : B.type = SymbolType.NON_TERMINAL
    · simp only [genItems, hnext, hB, if_true]
      constructor
      · intro h
        simp only [List.mem_flatMap, List.mem_map, List.mem_filter] at h
        obtain ⟨prod, hprod, term, ⟨hterm, hne⟩, rfl⟩ := h
        have hp := List.mem_filter.mp hprod
        exact ⟨B, rfl, hB, prod, hp.1, of_decide_eq_true hp.2, term, hterm,
          of_decide_eq_true hne, rfl⟩
      · rintro ⟨B2, hB2, _, prod, hprod, hlhs, term, hterm, hne, rfl⟩
        injection hB2 with hBeq
        subst hBeq
        simp only [List.mem_flatMap, List.mem_map, List.mem_filter]
        exact ⟨prod, List.mem_filter.mpr ⟨hprod, decide_eq_true hlhs⟩,
          term, ⟨hterm, decide_eq_true hne⟩, rfl⟩
    · simp only [genItems, hnext, hB, if_false]
      constructor
      · intro h; simp at h
      · rintro ⟨B2, hB2, hBt, _⟩
        injection hB2 with hBeq
        subst hBeq
        exact absurd hBt hB

/-- A generated item has its production in the grammar, dot 0, and a
lookahead of the canonical shape with a non-epsilon name. -/
theorem genItems_shape {g : Grammar} {it c : LR1Item} (h : c ∈ genItems g it) :
    c.production ∈ g.productions ∧ c.dotPosition = 0 ∧
      c.lookahead = mkLookahead c.lookahead.name ∧ c.lookahead.name ≠ epsStr := by
  obtain ⟨B, _, _, prod, hprod, _, term, _, hne, rfl⟩ := genItems_mem.mp h
  exact ⟨hprod, rfl, rfl, by simpa [mkLookahead] using hne⟩

/-- Membership characterisation of `queueNames`. -/
theorem mem_queueNames {g : Grammar} {q : List LR1Item} {s : String} :
    s ∈ queueNames g q ↔
      s ∈ rhsNamesList g ∨
        (∃ it ∈ q, s ∈ it.production.rhs.map (fun y => y.name)) ∨
        (∃ it ∈ q, s = it.lookahead.name) := by
  unfold queueNames
  simp only [Finset.mem_union, List.mem_toFinset, List.mem_flatMap, List.mem_map]
  constructor
  · rintro ((h | h) | h)
    · exact Or.inl h
    · obtain ⟨it, hit, hm⟩ := h
      exact Or.inr (Or.inl ⟨it, hit, hm⟩)
    · obtain ⟨it, hit, hm⟩ := h
      exact Or.inr (Or.inr ⟨it, hit, hm.symm⟩)
  · rintro (h | h | h)
    · exact Or.inl (Or.inl h)
    · obtain ⟨it, hit, hm⟩ := h
      exact Or.inl (Or.inr ⟨it, hit, hm⟩)
    · obtain ⟨it, hit, hm⟩ := h
      exact Or.inr ⟨it, hit, hm.symm⟩

/-- The lookahead name of an item generated from a queued item is already
a queue name. -/
theorem genItems_la_mem {g : Grammar} {q : List LR1Item} {it c : LR1Item}
    (hit : it ∈ q) (hc : c ∈ genItems g it) :
    c.lookahead.name ∈ queueNames g q := by
  obtain ⟨B, _, _, prod, hprod, _, term, hterm, hne, rfl⟩ := genItems_mem.mp hc
  have hname : (mkLookahead term).name = term := rfl
  rw [hname]
  rcases firstOfSequence_range g _ _ hterm with h | h | h
  · exact absurd h hne
  · rw [List.map_append, List.mem_append] at h
    rcases h with h2 | h2
    · refine mem_queueNames.mpr (Or.inr (Or.inl ⟨it, hit, ?_⟩))
      obtain ⟨y, hy, rfl⟩ := List.mem_map.mp h2
      exact List.mem_map.mpr ⟨y, List.mem_of_mem_drop hy, rfl⟩
    · simp only [List.map_cons, List.map_nil, List.mem_singleton] at h2
      exact mem_queueNames.mpr (Or.inr (Or.inr ⟨it, hit, h2⟩))
  · exact mem_queueNames.mpr (Or.inl h)

/-- Membership characterisation of `keyUniv`. -/
theorem mem_keyUniv {g : Grammar} {q : List LR1Item} {s : String} :
    s ∈ keyUniv g q ↔
      ∃ p ∈ g.productions, ∃ nm ∈ queueNames g q,
        s = (⟨p, 0, mkLookahead nm⟩ : LR1Item).toStr := by
  unfold keyUniv
  simp only [Finset.mem_image, Finset.mem_product, List.mem_toFinset, Prod.exists]
  constructor
  · rintro ⟨p, nm, ⟨hp, hnm⟩, rfl⟩
    exact ⟨p, hp, nm, hnm, rfl⟩
  · rintro ⟨p, hp, nm, hnm, rfl⟩
    exact ⟨p, nm, ⟨hp, hnm⟩, rfl⟩

/-- The key of an item generated from a queued item lies in the key
universe of the queue. -/
theorem genItems_key_mem {g : Grammar} {q : List LR1Item} {it c : LR1Item}
    (hit : it ∈ q) (hc : c ∈ genItems g it) : c.toStr ∈ keyUniv g q := by
  have hshape := genItems_shape hc
  have hla := genItems_la_mem hit hc
  refine mem_keyUniv.mpr ⟨c.production, hshape.1, c.lookahead.name, hla, ?_⟩
  obtain ⟨p, d, la⟩ := c
  simp only at hshape ⊢
  rw [hshape.2.1]
  have : la = mkLookahead la.name := hshape.2.2.1
  rw [← this]

/-- Rhs names of grammar productions are queue names for every queue. -/
theorem rhsNames_subset_queueNames {g : Grammar} {q : List LR1Item} {s : String}
    (h : s ∈ rhsNamesList g) : s ∈ queueNames g q :=
  mem_queueNames.mpr (Or.inl h)

/-- Shrinking the queue by popping its head and appending generated items
can only shrink the key universe. -/
theorem keyUniv_step_subset {g : Grammar} {it : LR1Item} {rest batch : List LR1Item}
    (hb : ∀ d ∈ batch, d ∈ genItems g it) :
    keyUniv g (rest ++ batch) ⊆ keyUniv g (it :: rest) := by
  intro s hs
  obtain ⟨p, hp, nm, hnm, rfl⟩ := mem_keyUniv.mp hs
  refine mem_keyUniv.mpr ⟨p, hp, nm, ?_, rfl⟩
  rcases mem_queueNames.mp hnm with h | h | h
  · exact rhsNames_subset_queueNames h
  · obtain ⟨x, hx, hm⟩ := h
    rcases List.mem_append.mp hx with hx2 | hx2
    · exact mem_queueNames.mpr (Or.inr (Or.inl ⟨x, List.mem_cons_of_mem _ hx2, hm⟩))
    · -- x is generated, so its production is a grammar production
      have := (genItems_shape (hb x hx2)).1
      refine rhsNames_subset_queueNames ?_
      unfold rhsNamesList
      simp only [List.mem_flatMap]
      obtain ⟨y, hy, rfl⟩ := List.mem_map.mp hm
      exact ⟨x.production, this, List.mem_map.mpr ⟨y, hy, rfl⟩⟩
  · obtain ⟨x, hx, hm⟩ := h
    rcases List.mem_append.mp hx with hx2 | hx2
    · exact mem_queueNames.mpr (Or.inr (Or.inr ⟨x, List.mem_cons_of_mem _ hx2, hm⟩))
    · rw [hm]
      exact genItems_la_mem (List.mem_cons_self it rest) (hb x hx2)

/-- The closure worklist drains within the fuel given by the key-universe
measure: one pop per queued item plus one per key still addable. -/
theorem closureAux_isSome :
    ∀ (n : Nat) (g : Grammar) (queue cs : List LR1Item) (proc : List String),
      queue.length + ((keyUniv g queue) \ proc.toFinset).card ≤ n →
      (closureAux g n queue cs proc).isSome := by
  intro n
  induction n with
  | zero =>
    intro g queue cs proc h
    match queue with
    | [] => simp [closureAux]
    | it :: rest => simp at h
  | succ n ih =>
    intro g queue cs proc h
    match queue with
    | [] => simp [closureAux]
    | it :: rest =>
      obtain ⟨batch, heq, hsub, hnd, hfresh, _⟩ :=
        pushItems_spec (genItems g it) cs [] proc
      have hstep : closureAux g (n + 1) (it :: rest) cs proc =
          closureAux g n (rest ++ ([] ++ batch)) (cs ++ batch)
            (proc ++ batch.map (fun d => d.toStr)) := by
        simp only [closureAux, heq]
      rw [hstep]
      simp only [List.nil_append]
      apply ih
      -- the measure decreased
      have hballgen : ∀ d ∈ batch, d ∈ genItems g it := hsub
      have huniv : keyUniv g (rest ++ batch) ⊆ keyUniv g (it :: rest) :=
        keyUniv_step_subset hballgen
      set A := keyUniv g (it :: rest) \ proc.toFinset with hA
      set K := (batch.map (fun d => d.toStr)).toFinset with hK
      have hKsub : K ⊆ A := by
        intro k hk
        rw [hK, List.mem_toFinset] at hk
        obtain ⟨d, hd, rfl⟩ := List.mem_map.mp hk
        rw [hA, Finset.mem_sdiff]
        exact ⟨genItems_key_mem (List.mem_cons_self it rest) (hballgen d hd),
          by simpa [List.mem_toFinset] using hfresh d hd⟩
      have hKcard : K.card = batch.length := by
        rw [hK]
        rw [List.toFinset_card_of_nodup hnd, List.length_map]
      have hsubset : keyUniv g (rest ++ batch) \
          (proc ++ batch.map (fun d => d.toStr)).toFinset ⊆ A \ K := by
        intro k hk
        rw [Finset.mem_sdiff] at hk
        rw [List.toFinset_append] at hk
        rw [Finset.mem_sdiff, hA, Finset.mem_sdiff]
        have hk2 := hk.2
        rw [Finset.mem_union, not_or] at hk2
        exact ⟨⟨huniv hk.1, hk2.1⟩, hk2.2⟩
      have hcard2 : (keyUniv g (rest ++ batch) \
          (proc ++ batch.map (fun d => d.toStr)).toFinset).card ≤ A.card - batch.length := by
        calc (keyUniv g (rest ++ batch) \
            (proc ++ batch.map (fun d => d.toStr)).toFinset).card
            ≤ (A \ K).card := Finset.card_le_card hsubset
          _ = A.card - K.card := Finset.card_sdiff hKsub
          _ = A.card - batch.length := by rw [hKcard]
      have hKle : batch.length ≤ A.card := by
        rw [← hKcard]
        exact Finset.card_le_card hKsub
      have hlen : (rest ++ batch).length = rest.length + batch.length := by
        simp
      simp only [List.length_cons] at h
      omega

/-- The defining run of `closure` succeeds; `closure g items` is its
result. -/
theorem closure_run (g : Grammar) (items : List LR1Item) :
    closureAux g (closureFuel g items) items items (initKeys items) =
      some (closure g items) := by
  have h := closureAux_isSome (closureFuel g items) g items items (initKeys items)
    (le_of_eq rfl)
  match heq : closureAux g (closureFuel g items) items items (initKeys items) with
  | some out => simp [closure, heq]
  | none => rw [heq] at h; simp at h

/-- The closure worklist never removes items: the starting closure set is
contained in the output. -/
theorem closureAux_sub {g : Grammar} :
    ∀ {n : Nat} {q cs : List LR1Item} {proc : List String} {out : List LR1Item},
      closureAux g n q cs proc = some out → ∀ x ∈ cs, x ∈ out := by
  intro n
  induction n with
  | zero =>
    intro q cs proc out h
    match q with
    | [] => cases h; exact fun x hx => hx
    | _ :: _ => cases h
  | succ n ih =>
    intro q cs proc out h
    match q with
    | [] => cases h; exact fun x hx => hx
    | it :: rest =>
      obtain ⟨batch, heq, _, _, _, _⟩ := pushItems_spec (genItems g it) cs [] proc
      rw [show closureAux g (n + 1) (it :: rest) cs proc =
          closureAux g n (rest ++ ([] ++ batch)) (cs ++ batch)
            (proc ++ batch.map (fun d => d.toStr)) by
        simp only [closureAux, heq]] at h
      intro x hx
      exact ih h x (List.mem_append.mpr (Or.inl hx))

/-- Everything the closure worklist produces lies in every set that
contains the starting closure set and queue and is closed under item
generation. -/
theorem closureAux_least {g : Grammar} (T : LR1Item → Prop)
    (hT : ∀ it, T it → ∀ c ∈ genItems g it, T c) :
    ∀ {n : Nat} {q cs : List LR1Item} {proc : List String} {out : List LR1Item},
      closureAux g n q cs proc = some out →
      (∀ x ∈ cs, T x) → (∀ x ∈ q, T x) → ∀ x ∈ out, T x := by
  intro n
  induction n with
  | zero =>
    intro q cs proc out h hcs _
    match q with
    | [] => cases h; exact hcs
    | _ :: _ => cases h
  | succ n ih =>
    intro q cs proc out h hcs hq
    match q with
    | [] => cases h; exact hcs
    | it :: rest =>
      obtain ⟨batch, heq, hsub, _, _, _⟩ := pushItems_spec (genItems g it) cs [] proc
      rw [show closureAux g (n + 1) (it :: rest) cs proc =
          closureAux g n (rest ++ ([] ++ batch)) (cs ++ batch)
            (proc ++ batch.map (fun d => d.toStr)) by
        simp only [closureAux, heq]] at h
      have hbatch : ∀ d ∈ batch, T d := fun d hd =>
        hT it (hq it (List.mem_cons_self it rest)) d (hsub d hd)
      refine ih h ?_ ?_
      · intro x hx
        rcases List.mem_append.mp hx with hx2 | hx2
        · exact hcs x hx2
        · exact hbatch x hx2
      · intro x hx
        rcases List.mem_append.mp hx with hx2 | hx2
        · exact hq x (List.mem_cons_of_mem _ hx2)
        · exact hbatch x (by simpa using hx2)

/-- At the end of a successful worklist run, every generation candidate of
every output item has its key realised by some output item.  The two
premises are the worklist invariants: every processed key belongs to some
closure-set item, and every closure-set item is either still queued or has
all its candidate keys processed. -/
theorem closureAux_closed {g : Grammar} :
    ∀ {n : Nat} {q cs : List LR1Item} {proc : List String} {out : List LR1Item},
      closureAux g n q cs proc = some out →
      (∀ k ∈ proc, ∃ x ∈ cs, x.toStr = k) →
      (∀ x ∈ cs, x ∈ q ∨ ∀ c ∈ genItems g x, c.toStr ∈ proc) →
      ∀ x ∈ out, ∀ c ∈ genItems g x, ∃ x2 ∈ out, x2.toStr = c.toStr := by
  intro n
  induction n with
  | zero =>
    intro q cs proc out h hkeys hcover
    match q with
    | [] =>
      cases h
      intro x hx c hc
      rcases hcover x hx with h2 | h2
      · cases h2
      · exact hkeys _ (h2 c hc)
    | _ :: _ => cases h
  | succ n ih =>
    intro q cs proc out h hkeys hcover
    match q with
    | [] =>
      cases h
      intro x hx c hc
      rcases hcover x hx with h2 | h2
      · cases h2
      · exact hkeys _ (h2 c hc)
    | it :: rest =>
      obtain ⟨batch, heq, hsub, _, _, hcov⟩ := pushItems_spec (genItems g it) cs [] proc
      rw [show closureAux g (n + 1) (it :: rest) cs proc =
          closureAux g n (rest ++ ([] ++ batch)) (cs ++ batch)
            (proc ++ batch.map (fun d => d.toStr)) by
        simp only [closureAux, heq]] at h
      refine ih h ?_ ?_
      · intro k hk
        rcases List.mem_append.mp hk with hk2 | hk2
        · obtain ⟨x, hx, hxk⟩ := hkeys k hk2
          exact ⟨x, List.mem_append.mpr (Or.inl hx), hxk⟩
        · obtain ⟨d, hd, hdk⟩ := List.mem_map.mp hk2
          exact ⟨d, List.mem_append.mpr (Or.inr hd), hdk⟩
      · intro x hx
        rcases List.mem_append.mp hx with hx2 | hx2
        · rcases hcover x hx2 with h2 | h2
          · rcases List.mem_cons.mp h2 with rfl | h3
            · -- the popped item: all its candidates are now processed
              right
              intro c hc
              have := hcov c hc
              simpa using this
            · exact Or.inl (List.mem_append.mpr (Or.inl h3))
          · exact Or.inr (fun c hc => List.mem_append.mpr (Or.inl (h2 c hc)))
        · exact Or.inl (List.mem_append.mpr (Or.inr (by simpa using hx2)))

/-- A successful worklist run keeps the closure set duplicate-free,
provided every closure-set key is processed (which the seeding
establishes). -/
theorem closureAux_nodup {g : Grammar} :
    ∀ {n : Nat} {q cs : List LR1Item} {proc : List String} {out : List LR1Item},
      closureAux g n q cs proc = some out →
      cs.Nodup → (∀ x ∈ cs, x.toStr ∈ proc) → out.Nodup := by
  intro n
  induction n with
  | zero =>
    intro q cs proc out h hnd _
    match q with
    | [] => cases h; exact hnd
    | _ :: _ => cases h
  | succ n ih =>
    intro q cs proc out h hnd hkeys
    match q with
    | [] => cases h; exact hnd
    | it :: rest =>
      obtain ⟨batch, heq, _, hbnd, hfresh, _⟩ := pushItems_spec (genItems g it) cs [] proc
      rw [show closureAux g (n + 1) (it :: rest) cs proc =
          closureAux g n (rest ++ ([] ++ batch)) (cs ++ batch)
            (proc ++ batch.map (fun d => d.toStr)) by
        simp only [closureAux, heq]] at h
      refine ih h ?_ ?_
      · rw [List.nodup_append]
        refine ⟨hnd, hbnd.of_map, ?_⟩
        intro x hx hx2
        exact hfresh x hx2 (hkeys x hx)
      · intro x hx
        rcases List.mem_append.mp hx with hx2 | hx2
        · exact List.mem_append.mpr (Or.inl (hkeys x hx2))
        · exact List.mem_append.mpr (Or.inr (List.mem_map.mpr ⟨x, hx2, rfl⟩))

/-- When every candidate key of every queued item is already processed, the
worklist drains without adding anything. -/
theorem closureAux_noPush {g : Grammar} :
    ∀ (n : Nat) (q cs : List LR1Item) (proc : List String),
      (∀ x ∈ q, ∀ c ∈ genItems g x, c.toStr ∈ proc) →
      q.length ≤ n →
      closureAux g n q cs proc = some cs := by
  intro n
  induction n with
  | zero =>
    intro q cs proc _ hlen
    match q with
    | [] => rfl
    | _ :: _ => simp at hlen
  | succ n ih =>
    intro q cs proc hall hlen
    match q with
    | [] => rfl
    | it :: rest =>
      have hnone : pushItems (genItems g it) cs [] proc = (cs, [], proc) := by
        have hallit := hall it (List.mem_cons_self it rest)
        clear hall hlen ih
        generalize genItems g it = cands at hallit
        induction cands with
        | nil => rfl
        | cons c cr ihc =>
          simp only [pushItems, if_pos (hallit c (List.mem_cons_self c cr))]
          exact ihc (fun x hx => hallit x (List.mem_cons_of_mem _ hx))
      rw [show closureAux g (n + 1) (it :: rest) cs proc =
          closureAux g n (rest ++ []) cs proc by
        simp only [closureAux, hnone]]
      rw [List.append_nil]
      refine ih rest cs proc ?_ ?_
      · exact fun x hx => hall x (List.mem_cons_of_mem _ hx)
      · simpa using Nat.le_of_succ_le_succ (by simpa using hlen)

/-- CLOSURE contains its argument. -/
theorem closure_sub (g : Grammar) (items : List LR1Item) :
    ∀ x ∈ items, x ∈ closure g items :=
  closureAux_sub (closure_run g items)

/-- CLOSURE is contained in every generation-closed superset of its
argument. -/
theorem closure_least (g : Grammar) (items : List LR1Item) (T : LR1Item → Prop)
    (hT : ∀ it, T it → ∀ c ∈ genItems g it, T c)
    (hitems : ∀ x ∈ items, T x) :
    ∀ x ∈ closure g items, T x :=
  closureAux_least T hT (closure_run g items) hitems hitems

/-- CLOSURE is closed under item generation up to printable-form keys. -/
theorem closure_keyClosed (g : Grammar) (items : List LR1Item) :
    ∀ x ∈ closure g items, ∀ c ∈ genItems g x,
      ∃ x2 ∈ closure g items, x2.toStr = c.toStr := by
  refine closureAux_closed (closure_run g items) ?_ ?_
  · intro k hk
    obtain ⟨x, hx, hxk⟩ := List.mem_map.mp (mem_initKeys.mp hk)
    exact ⟨x, hx, hxk⟩
  · exact fun x hx => Or.inl hx

/-- CLOSURE of a duplicate-free item list is duplicate-free. -/
theorem closure_nodup (g : Grammar) (items : List LR1Item) (h : items.Nodup) :
    (closure g items).Nodup :=
  closureAux_nodup (closure_run g items) h
    (fun x hx => mem_initKeys.mpr (List.mem_map.mpr ⟨x, hx, rfl⟩))

/-- Items of a CLOSURE are either seed items or carry a non-epsilon
lookahead (generated lookaheads are filtered). -/
theorem closure_la (g : Grammar) (items : List LR1Item) :
    ∀ x ∈ closure g items, x ∈ items ∨ x.lookahead.name ≠ epsStr := by
  refine closure_least g items (fun x => x ∈ items ∨ x.lookahead.name ≠ epsStr) ?_ ?_
  · intro it _ c hc
    exact Or.inr (genItems_shape hc).2.2.2
  · exact fun x hx => Or.inl hx

/-- CLOSURE is idempotent, even on the nose as returned lists: the second
run starts with every candidate key already processed and adds nothing. -/
theorem closure_idem (g : Grammar) (items : List LR1Item) :
    closure g (closure g items) = closure g items := by
  have hclosed := closure_keyClosed g items
  have hall : ∀ x ∈ closure g items, ∀ c ∈ genItems g x,
      c.toStr ∈ initKeys (closure g items) := by
    intro x hx c hc
    obtain ⟨x2, hx2, hk⟩ := hclosed x hx c hc
    exact mem_initKeys.mpr (List.mem_map.mpr ⟨x2, hx2, hk⟩)
  have hfuel : (closure g items).length ≤ closureFuel g (closure g items) := by
    unfold closureFuel
    omega
  have hrun := closureAux_noPush (closureFuel g (closure g items))
    (closure g items) (closure g items) (initKeys (closure g items)) hall hfuel
  conv_lhs => rw [closure]
  rw [hrun]
  rfl

/-- Two duplicate-free, set-equal item lists are recognised as the same
state by `isSameState`. -/
theorem setEq_isSameState {a b : List LR1Item} (ha : a.Nodup) (hb : b.Nodup)
    (h : itemSetEq a b) : isSameState a b = true := by
  have hperm : a.Perm b := (List.perm_ext_iff_of_nodup ha hb).mpr
    (fun x => ⟨fun hx => h.1 x hx, fun hx => h.2 x hx⟩)
  unfold isSameState
  rw [Bool.and_eq_true]
  refine ⟨decide_eq_true hperm.length_eq, ?_⟩
  rw [List.all_eq_true]
  intro it hit
  have hmem : it.toStr ∈ a.map (fun x => x.toStr) :=
    List.mem_map.mpr ⟨it, h.2 it hit, rfl⟩
  simpa [List.contains] using hmem

/-- Characterisation of a successful dot advance. -/
theorem moveDot_eq_some {X : Symbol} {it c : LR1Item} :
    moveDot X it = some c ↔
      (∃ next, it.nextSymbol = some next ∧ next.name = X.name) ∧
        c = ⟨it.production, it.dotPosition + 1, it.lookahead⟩ := by
  unfold moveDot
  cases hnx : it.nextSymbol with
  | none => simp
  | some nx =>
    by_cases hn : nx.name = X.name
    · simp only [if_pos hn, Option.some.injEq]
      constructor
      · intro h; exact ⟨⟨nx, rfl, hn⟩, h.symm⟩
      · intro h; exact h.2.symm
    · simp only [if_neg hn]
      constructor
      · intro h; cases h
      · rintro ⟨⟨next, hnext, hname⟩, _⟩
        injection hnext with hne
        subst hne
        exact absurd hname hn

/-- An empty `findStateIdx` search certifies that no state matches. -/
theorem findStateIdx_none {target : List LR1Item} :
    ∀ {l : List (List LR1Item)} {j : Nat}, findStateIdx target l j = none →
      ∀ s ∈ l, isSameState s target = false := by
  intro l
  induction l with
  | nil => intro j _ s hs; cases hs
  | cons y ys ih =>
    intro j h s hs
    unfold findStateIdx at h
    by_cases hy : isSameState y target
    · rw [if_pos hy] at h; cases h
    · rw [if_neg hy] at h
      rcases List.mem_cons.mp hs with rfl | hs2
      · exact Bool.eq_false_iff.mpr hy
      · exact ih h s hs2

/-- GOTO of a duplicate-free state is duplicate-free (advancing the dot is
injective on items, and closure preserves distinctness). -/
theorem goto_nodup (g : Grammar) (state : List LR1Item) (X : Symbol)
    (h : state.Nodup) : (goto g state X).Nodup := by
  unfold goto
  apply closure_nodup
  refine List.Nodup.filterMap ?_ h
  intro x y c hx hy
  rw [Option.mem_def, moveDot_eq_some] at hx hy
  have := hx.2.symm.trans hy.2
  obtain ⟨xp, xd, xl⟩ := x
  obtain ⟨yp, yd, yl⟩ := y
  simp only [LR1Item.mk.injEq] at this ⊢
  exact ⟨this.1, by omega, this.2.2⟩

/-- GOTO of a state without epsilon lookaheads has no epsilon lookaheads. -/
theorem goto_la (g : Grammar) (state : List LR1Item) (X : Symbol)
    (h : ∀ it ∈ state, it.lookahead.name ≠ epsStr) :
    ∀ x ∈ goto g state X, x.lookahead.name ≠ epsStr := by
  intro x hx
  rcases closure_la g _ x hx with h2 | h2
  · obtain ⟨it, hit, hmap⟩ := List.mem_filterMap.mp h2
    rw [moveDot_eq_some] at hmap
    rw [hmap.2]
    exact h it hit
  · exact h2

/-- A state read through `getD` is duplicate-free under the loop
invariant. -/
theorem getD_nodup {states : List (List LR1Item)} (hinv : CCInv states) (i : Nat) :
    (states.getD i []).Nodup := by
  by_cases hi : i < states.length
  · have : states.getD i [] = states[i] := List.getD_eq_getElem states [] hi
    rw [this]
    exact hinv.2.1 _ (List.getElem_mem hi)
  · have : states.getD i [] = [] := by
      rw [List.getD_eq_getElem?_getD, List.getElem?_eq_none (by omega)]
      rfl
    rw [this]
    exact List.nodup_nil

/-- A state read through `getD` has no epsilon lookaheads under the loop
invariant. -/
theorem getD_la {states : List (List LR1Item)} (hinv : CCInv states) (i : Nat) :
    ∀ it ∈ states.getD i [], it.lookahead.name ≠ epsStr := by
  by_cases hi : i < states.length
  · have : states.getD i [] = states[i] := List.getD_eq_getElem states [] hi
    rw [this]
    exact hinv.2.2 _ (List.getElem_mem hi)
  · have : states.getD i [] = [] := by
      rw [List.getD_eq_getElem?_getD, List.getElem?_eq_none (by omega)]
      rfl
    rw [this]
    intro it hit
    cases hit

/-- One symbol step of the collection loop preserves the invariant and
only appends states. -/
theorem processSymbol_inv {g : Grammar} {i : Nat} {state : List LR1Item}
    {symName : String} {acc : List (List LR1Item) × Transitions × Bool}
    (hnd : state.Nodup) (hla : ∀ it ∈ state, it.lookahead.name ≠ epsStr)
    (hinv : CCInv acc.1) :
    CCInv (processSymbol g i state symName acc).1 ∧
      ∃ tl, (processSymbol g i state symName acc).1 = acc.1 ++ tl := by
  unfold processSymbol
  cases hfind : state.find? (fun it => (it.nextSymbol).any (fun n => n.name = symName)) with
  | none => exact ⟨hinv, [], by simp⟩
  | some witIt =>
    dsimp only
    cases hnx : witIt.nextSymbol with
    | none => exact ⟨hinv, [], by simp⟩
    | some symObj =>
      dsimp only
      by_cases hempty : (goto g state symObj).isEmpty
      · rw [if_pos hempty]
        exact ⟨hinv, [], by simp⟩
      · rw [if_neg hempty]
        cases hidx : findStateIdx (goto g state symObj) acc.1 0 with
        | some j => exact ⟨hinv, [], by simp⟩
        | none =>
          dsimp only
          refine ⟨⟨?_, ?_, ?_⟩, [goto g state symObj], rfl⟩
          · rw [List.pairwise_append]
            refine ⟨hinv.1, List.pairwise_singleton _ _, ?_⟩
            intro a hamem b hbmem
            rcases List.mem_singleton.mp hbmem with rfl
            intro hset
            have := setEq_isSameState (hinv.2.1 a hamem) (goto_nodup g state symObj hnd) hset
            rw [findStateIdx_none hidx a hamem] at this
            cases this
          · intro s hs
            rcases List.mem_append.mp hs with hs2 | hs2
            · exact hinv.2.1 s hs2
            · rcases List.mem_singleton.mp hs2 with rfl
              exact goto_nodup g state symObj hnd
          · intro s hs
            rcases List.mem_append.mp hs with hs2 | hs2
            · exact hinv.2.2 s hs2
            · rcases List.mem_singleton.mp hs2 with rfl
              exact goto_la g state symObj hla

/-- One state step of the collection loop preserves the invariant and only
appends states. -/
theorem processState_inv {g : Grammar} {i : Nat} {states : List (List LR1Item)}
    {tr : Transitions} {changed : Bool} (hinv : CCInv states) :
    CCInv (processState g i states tr changed).1 ∧
      ∃ tl, (processState g i states tr changed).1 = states ++ tl := by
  unfold processState
  have hnd := getD_nodup hinv i
  have hla := getD_la hinv i
  generalize stateSymbols (states.getD i []) = syms
  have core : ∀ (l : List String) (acc : List (List LR1Item) × Transitions × Bool),
      CCInv acc.1 → (∃ tl0, acc.1 = states ++ tl0) →
      CCInv (l.foldl (fun acc symName => processSymbol g i (states.getD i []) symName acc) acc).1 ∧
        ∃ tl, (l.foldl (fun acc symName => processSymbol g i (states.getD i []) symName acc) acc).1 =
          states ++ tl := by
    intro l
    induction l with
    | nil => intro acc h1 h2; exact ⟨h1, h2⟩
    | cons s ss ih =>
      intro acc h1 h2
      simp only [List.foldl_cons]
      obtain ⟨hinv2, tl2, heq2⟩ := processSymbol_inv hnd hla h1
      refine ih _ hinv2 ?_
      obtain ⟨tl0, h0⟩ := h2
      exact ⟨tl0 ++ tl2, by rw [heq2, h0, List.append_assoc]⟩
  exact core syms (states, tr, changed) hinv ⟨[], by simp⟩

/-- The collection loop preserves the invariant and the identity of state
0, at every fuel. -/
theorem ccLoop_inv (g : Grammar) :
    ∀ (fuel i : Nat) (states : List (List LR1Item)) (tr : Transitions) (changed : Bool),
      CCInv states → states ≠ [] →
      CCInv (ccLoop g fuel i states tr changed).states ∧
        (ccLoop g fuel i states tr changed).states.head? = states.head? := by
  intro fuel
  induction fuel with
  | zero => intro i states tr changed hinv _; exact ⟨hinv, rfl⟩
  | succ fuel ih =>
    intro i states tr changed hinv hne
    by_cases hi : i < states.length
    · simp only [ccLoop, hi, if_true]
      obtain ⟨hinv2, tl, heq⟩ := @processState_inv g i states tr changed hinv
      have hne2 : (processState g i states tr changed).1 ≠ [] := by
        rw [heq]
        match states, hne with
        | s :: rest, _ => simp
      have hrec := ih (i + 1) (processState g i states tr changed).1
        (processState g i states tr changed).2.1 (processState g i states tr changed).2.2
        hinv2 hne2
      refine ⟨hrec.1, ?_⟩
      rw [hrec.2, heq]
      match states, hne with
      | s :: rest, _ => simp
    · simp only [ccLoop, hi, if_false]
      by_cases hch : changed = true
      · simp only [hch, if_true]
        exact ih 0 states tr false hinv hne
      · have : changed = false := by
          cases changed
          · rfl
          · exact absurd rfl hch
        subst this
        rw [if_neg (by simp)]
        exact ⟨hinv, rfl⟩

/-- Every collection produced by `buildCanonicalCollection` satisfies the
invariant, and its state 0 is the closure of the start item. -/
theorem buildCC_inv (g : Grammar) (fuel : Nat) (cc : CanonicalCollection)
    (h : buildCanonicalCollection g fuel = some cc) :
    CCInv cc.states ∧
      ∃ p rest, g.productions = p :: rest ∧
        cc.states.head? = some (closure g [⟨p, 0, ⟨"$", SymbolType.END⟩⟩]) := by
  unfold buildCanonicalCollection at h
  match hp : g.productions with
  | [] => rw [hp] at h; cases h
  | startProd :: rest =>
    rw [hp] at h
    simp only [Option.some.injEq] at h
    have hinv0 : CCInv [closure g [⟨startProd, 0, ⟨"$", SymbolType.END⟩⟩]] := by
      refine ⟨List.pairwise_singleton _ _, ?_, ?_⟩
      · intro s hs
        rcases List.mem_singleton.mp hs with rfl
        exact closure_nodup g _ (List.nodup_singleton _)
      · intro s hs
        rcases List.mem_singleton.mp hs with rfl
        intro it hit
        rcases closure_la g _ it hit with h2 | h2
        · rcases List.mem_singleton.mp h2 with rfl
          intro hcon
          simp only [epsStr] at hcon
          exact absurd hcon (by decide)
        · exact h2
    have := ccLoop_inv g fuel 0 [closure g [⟨startProd, 0, ⟨"$", SymbolType.END⟩⟩]] [] false
      hinv0 (by simp)
    rw [h] at this
    refine ⟨this.1, startProd, rest, rfl, ?_⟩
    rw [this.2]
    rfl

/-- Reading back the key just written into an association-list map. -/
theorem alistGet?_set_self {K V : Type} [DecidableEq K] :
    ∀ (l : List (K × V)) (k : K) (v : V), alistGet? (alistSet l k v) k = some v := by
  intro l k v
  unfold alistSet
  by_cases h : l.any (fun kv => kv.1 = k)
  · rw [if_pos h]
    induction l with
    | nil => simp at h
    | cons kv rest ih =>
      by_cases hk : kv.1 = k
      · simp only [List.map_cons, if_pos hk]
        unfold alistGet?
        rw [List.find?_cons_of_pos _ (by simp)]
        rfl
      · simp only [List.map_cons, if_neg hk]
        unfold alistGet?
        rw [List.find?_cons_of_neg _ (by simpa using hk)]
        have hrest : rest.any (fun kv => kv.1 = k) := by
          rcases List.any_eq_true.mp h with ⟨x, hx, hxk⟩
          rcases List.mem_cons.mp hx with rfl | hx2
          · exact absurd (of_decide_eq_true hxk) hk
          · exact List.any_eq_true.mpr ⟨x, hx2, hxk⟩
        simpa [alistGet?] using ih hrest
  · rw [if_neg h]
    have hnone : l.find? (fun kv => kv.1 = k) = none := by
      rw [List.find?_eq_none]
      intro x hx
      intro hxk
      exact h (List.any_eq_true.mpr ⟨x, hx, hxk⟩)
    unfold alistGet?
    rw [List.find?_append, hnone]
    simp

/-- Writing one key leaves lookups of other keys unchanged. -/
theorem alistGet?_set_ne {K V : Type} [DecidableEq K] :
    ∀ (l : List (K × V)) (k k2 : K) (v : V), k2 ≠ k →
      alistGet? (alistSet l k v) k2 = alistGet? l k2 := by
  intro l k k2 v hne
  unfold alistSet
  by_cases h : l.any (fun kv => kv.1 = k)
  · rw [if_pos h]
    clear h
    induction l with
    | nil => rfl
    | cons kv rest ih =>
      by_cases hk : kv.1 = k
      · simp only [List.map_cons, if_pos hk]
        unfold alistGet?
        rw [List.find?_cons_of_neg _ (by simpa using fun hcon => hne hcon.symm),
          List.find?_cons_of_neg _ (by simpa [hk] using fun hcon => hne hcon.symm)]
        simpa [alistGet?] using ih
      · simp only [List.map_cons, if_neg hk]
        by_cases hk2 : kv.1 = k2
        · unfold alistGet?
          rw [List.find?_cons_of_pos _ (by simpa using hk2),
            List.find?_cons_of_pos _ (by simpa using hk2)]
        · unfold alistGet?
          rw [List.find?_cons_of_neg _ (by simpa using hk2),
            List.find?_cons_of_neg _ (by simpa using hk2)]
          simpa [alistGet?] using ih
  · rw [if_neg h]
    unfold alistGet?
    rw [List.find?_append]
    have : [(k, v)].find? (fun kv => kv.1 = k2) = none := by
      rw [List.find?_cons_of_neg _ (by simpa using fun hcon => hne hcon.symm)]
      rfl
    rw [this]
    simp

/-- Lookup after a sequence of conditional map writes equals the value of
the last write with that key, falling back to the initial map. -/
theorem foldWrites_lookup (f : LR1Item → Option (String × Action)) :
    ∀ (items : List LR1Item) (row : List (String × Action)) (a : String),
      alistGet? (items.foldl (fun row it =>
        match f it with
        | none => row
        | some kv => alistSet row kv.1 kv.2) row) a =
      match lastWrite (items.filterMap f) a with
      | some v => some v
      | none => alistGet? row a := by
  intro items
  induction items using List.reverseRecOn with
  | nil => intro row a; simp [lastWrite]
  | append_singleton l x ih =>
    intro row a
    rw [List.foldl_append]
    simp only [List.foldl_cons, List.foldl_nil]
    rw [List.filterMap_append]
    cases hfx : f x with
    | none =>
      simp only [hfx]
      rw [ih]
      have : List.filterMap f [x] = [] := by simp [hfx]
      rw [this, List.append_nil]
    | some kv =>
      have : List.filterMap f [x] = [kv] := by simp [hfx]
      rw [this]
      simp only [hfx]
      by_cases hka : kv.1 = a
      · rw [← hka]
        rw [alistGet?_set_self]
        unfold lastWrite
        rw [List.filter_append]
        have : List.filter (fun kv2 => kv2.1 = kv.1) [kv] = [kv] := by simp
        rw [this, List.getLast?_concat]
        simp
      · rw [alistGet?_set_ne _ _ _ _ (fun hcon => hka hcon.symm)]
        rw [ih]
        unfold lastWrite
        rw [List.filter_append]
        have : List.filter (fun kv2 => kv2.1 = a) [kv] = [] := by simp [hka]
        rw [this, List.append_nil]

/-- The ACTION row of a state resolves each cell to the last item write
with that key. -/
theorem actionRow_lookup (g : Grammar) (tr : Transitions) (i : Nat)
    (state : List LR1Item) (a : String) :
    alistGet? (actionRow g tr i state) a =
      lastWrite (state.filterMap (actionWritesOfItem g tr i)) a := by
  unfold actionRow
  rw [foldWrites_lookup]
  cases lastWrite (state.filterMap (actionWritesOfItem g tr i)) a with
  | some v => rfl
  | none => simp [alistGet?]

/-- Row lookup in the action half of `tableRows`. -/
theorem tableRows_action_get (g : Grammar) (tr : Transitions) :
    ∀ (states : List (List LR1Item)) (i0 j : Nat) (hj : j < states.length),
      alistGet? (tableRows g tr states i0).1 (i0 + j) =
        some (actionRow g tr (i0 + j) (states.get ⟨j, hj⟩)) := by
  intro states
  induction states with
  | nil => intro i0 j hj; cases hj
  | cons st rest ih =>
    intro i0 j hj
    cases j with
    | zero =>
      simp only [tableRows, Nat.add_zero]
      unfold alistGet?
      rw [List.find?_cons_of_pos _ (by simp)]
      rfl
    | succ jj =>
      simp only [tableRows]
      unfold alistGet?
      rw [List.find?_cons_of_neg _ (by intro hcon; simp at hcon)]
      have hrw : i0 + (jj + 1) = (i0 + 1) + jj := by omega
      have hjj : jj < rest.length := by simpa using Nat.lt_of_succ_lt_succ hj
      rw [hrw]
      simpa [alistGet?] using ih (i0 + 1) jj hjj

/-- ACTION lookup in a built table resolves to the last write of the
corresponding state (helper shared by the conflict-policy and accept-cell
theorems). -/
theorem actionLookup_lastWrite (g : Grammar) (cc : CanonicalCollection) (i : Nat)
    (state : List LR1Item) (a : String) (h : cc.states[i]? = some state) :
    actionLookup (buildPTfromCC g cc) i a =
      lastWrite (state.filterMap (actionWritesOfItem g cc.transitions i)) a := by
  have hi : i < cc.states.length := by
    by_contra hge
    rw [List.getElem?_eq_none (by omega)] at h
    cases h
  have hget : cc.states.get ⟨i, hi⟩ = state := by
    have h2 := h
    rw [List.getElem?_eq_getElem hi] at h2
    exact Option.some.inj h2
  have hrow := tableRows_action_get g cc.transitions cc.states 0 i hi
  simp only [Nat.zero_add] at hrow
  show (alistGet? (tableRows g cc.transitions cc.states 0).1 i).bind
      (fun row => alistGet? row a) =
    lastWrite (state.filterMap (actionWritesOfItem g cc.transitions i)) a
  rw [hrow, hget]
  exact actionRow_lookup g cc.transitions i state a

/-- When a nonempty, all-equal write list is consulted, the last entry is
that common value. -/
theorem getLast?_all_eq {α : Type} {v : α} :
    ∀ {l : List α}, l ≠ [] → (∀ x ∈ l, x = v) → l.getLast? = some v := by
  intro l
  induction l with
  | nil => intro h _; exact absurd rfl h
  | cons x xs ih =>
    intro _ hall
    cases xs with
    | nil => simpa [List.getLast?] using hall x (List.mem_cons_self _ _)
    | cons y ys =>
      rw [List.getLast?_cons_cons]
      exact ih (by simp) (fun z hz => hall z (List.mem_cons_of_mem _ hz))

/-- Popping `n` entries one at a time equals keeping the first
`length - n` entries. -/
theorem popN_eq_take : ∀ (n : Nat) (l : List StackEntry),
    popN n l = l.take (l.length - n) := by
  intro n
  induction n with
  | zero => intro l; simp [popN]
  | succ n ih =>
    intro l
    simp only [popN]
    rw [ih, List.length_dropLast, List.dropLast_eq_take, List.take_take]
    congr 1
    omega

/-- Popping `k ≤ length` nodes pops exactly the last `k` nodes (in pop
order, so reversed) and keeps the first `length - k`. -/
theorem popNodes_spec : ∀ (k : Nat) (ns : List ParseNode), k ≤ ns.length →
    popNodes k ns = ((ns.drop (ns.length - k)).reverse, ns.take (ns.length - k)) := by
  intro k
  induction k with
  | zero => intro ns _; simp [popNodes]
  | succ k ih =>
    intro ns hk
    cases ns using List.reverseRecOn with
    | nil => simp at hk
    | append_singleton L x =>
      have hlen : (L ++ [x]).length = L.length + 1 := by simp
      have hk2 : k ≤ L.length := by rw [hlen] at hk; omega
      simp only [popNodes, List.getLast?_concat, List.dropLast_concat]
      rw [ih L hk2]
      have hm : (L ++ [x]).length - (k + 1) = L.length - k := by rw [hlen]; omega
      rw [hm]
      rw [List.drop_append_of_le_length (by omega), List.take_append_of_le_length (by omega)]
      simp

/-- The start symbol registered by the grammar-parser loop never changes
after line 0. -/
theorem parseGrammarLoop_oss_stable (ntNames : List String) :
    ∀ (lines : List String) (idx : Nat) (oss : Option Symbol) (prods : List Production),
      idx ≠ 0 → (parseGrammarLoop ntNames lines idx oss prods).1 = oss := by
  intro lines
  induction lines with
  | nil => intro idx oss prods _; rfl
  | cons line rest ih =>
    intro idx oss prods hidx
    unfold parseGrammarLoop
    cases lineParts line with
    | none => exact ih (idx + 1) oss prods (by omega)
    | some ab =>
      dsimp only
      rw [if_neg hidx]
      exact ih (idx + 1) oss _ (by omega)

/-- The productions accumulated by the grammar-parser loop only grow. -/
theorem parseGrammarLoop_prods (ntNames : List String) :
    ∀ (lines : List String) (idx : Nat) (oss : Option Symbol) (prods : List Production),
      ∃ tl, (parseGrammarLoop ntNames lines idx oss prods).2 = prods ++ tl := by
  intro lines
  induction lines with
  | nil => intro idx oss prods; exact ⟨[], by simp [parseGrammarLoop]⟩
  | cons line rest ih =>
    intro idx oss prods
    unfold parseGrammarLoop
    cases lineParts line with
    | none => exact ih (idx + 1) oss prods
    | some ab =>
      dsimp only
      obtain ⟨tl, htl⟩ := ih (idx + 1)
        (if idx = 0 then some ⟨jsTrim ab.1, SymbolType.NON_TERMINAL⟩ else oss)
        (prods ++ (jsSplit ab.2 "|").map
          (fun opt => Production.mk ⟨jsTrim ab.1, SymbolType.NON_TERMINAL⟩ (parseRhsAlt ntNames opt)))
      refine ⟨(jsSplit ab.2 "|").map
          (fun opt => Production.mk ⟨jsTrim ab.1, SymbolType.NON_TERMINAL⟩ (parseRhsAlt ntNames opt)) ++ tl, ?_⟩
      rw [← List.append_assoc]
      exact htl

/-- C10: the result of `parseString` depends only on the input string, the
parsing table, and the fuel; the grammar argument is accepted as `_grammar`
and never read, so any two grammars give identical results. -/
theorem claim_c10_grammar_independent (s : String) (t : ParsingTable)
    (g1 g2 : Grammar) (fuel : Nat) :
    parseString s g1 t fuel = parseString s g2 t fuel := rfl

/-- C9: no item produced by `closure` has epsilon as its lookahead (every
generated lookahead is filtered against epsilon), and hence no item in any
state of the canonical collection has an epsilon lookahead. -/
theorem claim_c9_no_eps_lookahead :
    (∀ (g : Grammar) (items : List LR1Item) (it : LR1Item),
      it ∈ closure g items → it ∈ items ∨ it.lookahead.name ≠ epsStr) ∧
    (∀ (g : Grammar) (fuel : Nat) (cc : CanonicalCollection),
      buildCanonicalCollection g fuel = some cc →
      ∀ state ∈ cc.states, ∀ it ∈ state, it.lookahead.name ≠ epsStr) := by
  constructor
  · exact fun g items it h => closure_la g items it h
  · intro g fuel cc h state hs it hit
    exact (buildCC_inv g fuel cc h).1.2.2 state hs it hit

/-- Witness for C9 at the grammar `S -> a`: the first item of state 0 of
its canonical collection has a non-epsilon lookahead. -/
theorem claim_c9_witness :
    ((exCCSmall.states.getD 0 []).getD 0 dfltItem).lookahead.name ≠ epsStr :=
  claim_c9_no_eps_lookahead.2 exGSmall 100 exCCSmall rfl
    (exCCSmall.states.getD 0 []) (by decide)
    ((exCCSmall.states.getD 0 []).getD 0 dfltItem) (by decide)

/-- C8: in every collection returned by `buildCanonicalCollection`, state 0
is the closure of the start item, and no two states are set-equal. -/
theorem claim_c8_canonical_collection (g : Grammar) (fuel : Nat)
    (cc : CanonicalCollection) (h : buildCanonicalCollection g fuel = some cc) :
    (∃ p rest, g.productions = p :: rest ∧
        cc.states.head? = some (closure g [⟨p, 0, ⟨"$", SymbolType.END⟩⟩])) ∧
      cc.states.Pairwise (fun a b => ¬ itemSetEq a b) := by
  have h2 := buildCC_inv g fuel cc h
  exact ⟨h2.2, h2.1.1⟩

/-- Witness for C8 at the grammar `S -> a`. -/
theorem claim_c8_witness :
    (∃ p rest, exGSmall.productions = p :: rest ∧
        exCCSmall.states.head? =
          some (closure exGSmall [⟨p, 0, ⟨"$", SymbolType.END⟩⟩])) ∧
      exCCSmall.states.Pairwise (fun a b => ¬ itemSetEq a b) :=
  claim_c8_canonical_collection exGSmall 100 exCCSmall rfl

/-- C3 counterexample: on the grammar `A -> A b | ε` the reference FIRST
set of `A` contains `b` (A is nullable, so `A -> A b` yields `b`), but the
implemented visited-set computation returns only `ε`: the visited cut makes
the recursive `first(A)` empty, which reads as not-nullable and aborts the
production scan before reaching `b`. -/
theorem claim_c3_counterexample :
    FirstRef cGrammarRec ⟨"A", SymbolType.NON_TERMINAL⟩ "b" ∧
      "b" ∉ first cGrammarRec [] ⟨"A", SymbolType.NON_TERMINAL⟩ ∧
      first cGrammarRec [] ⟨"A", SymbolType.NON_TERMINAL⟩ = [epsStr] := by
  refine ⟨?_, by decide, by decide⟩
  refine FirstRef.deriv _ cProdAb 1 "b" (by decide) (by decide) (by decide)
    (by decide) ?_ ?_ (by decide)
  · intro j hj hj1
    have hj0 : j = 0 := by omega
    subst hj0
    show FirstRef cGrammarRec ⟨"A", SymbolType.NON_TERMINAL⟩ epsStr
    exact FirstRef.eps _ cProdAe (by decide) (by decide) (by decide)
      (fun j hj => absurd hj (by simp [cProdAe]))
  · exact FirstRef.base ⟨"b", SymbolType.TERMINAL⟩ (Or.inl rfl)

/-- C3 amended: FIRST of a terminal or `$` is its own name, and for every
symbol the computed FIRST is a sound subset of the reference definition;
for left-recursive nullable non-terminals the inclusion can be strict (see
the counterexample), so equality does not hold in general. -/
theorem claim_c3_amended :
    (∀ (g : Grammar) (visited : List String) (X : Symbol),
      X.type = SymbolType.TERMINAL ∨ X.type = SymbolType.END →
      first g visited X = [X.name]) ∧
    (∀ (g : Grammar) (visited : List String) (X : Symbol) (s : String),
      s ∈ first g visited X → FirstRef g X s) := by
  constructor
  · intro g visited X h
    unfold first firstN
    rw [if_pos h]
  · exact fun g visited X s h => first_sound g visited X s h

/-- Witness for C3 amended at the grammar `S -> a`: the computed member `a`
of FIRST of `S` is reference-derivable, and FIRST of the terminal `a` is
itself. -/
theorem claim_c3_witness :
    first exGSmall [] ⟨"a", SymbolType.TERMINAL⟩ = ["a"] ∧
      FirstRef exGSmall ⟨"S", SymbolType.NON_TERMINAL⟩ "a" :=
  ⟨claim_c3_amended.1 exGSmall [] ⟨"a", SymbolType.TERMINAL⟩ (Or.inl rfl),
   claim_c3_amended.2 exGSmall [] ⟨"S", SymbolType.NON_TERMINAL⟩ "a" (by decide)⟩

/-- C7 counterexample: over the grammar `A -> B`, `B -> .` (a terminal
literally named `.`), the seed set containing `B -> " . " dot , $` and
`A -> dot B , $` satisfies every premise of the expansion rule for the item
`B -> dot " . " , $`, yet that item is not in the closure: its printable
form collides with the seed item, so the key-based deduplication drops it.
Hence `closure(S)` is not a fixed point of the expansion rule. -/
theorem claim_c7_counterexample :
    cItemA ∈ closure cGrammarDot cSeedDot ∧
      cItemA.nextSymbol = some ⟨"B", SymbolType.NON_TERMINAL⟩ ∧
      (⟨"B", SymbolType.NON_TERMINAL⟩ : Symbol).type = SymbolType.NON_TERMINAL ∧
      cProdB2 ∈ cGrammarDot.productions ∧
      cProdB2.lhs.name = "B" ∧
      "$" ∈ firstOfSequence cGrammarDot
        (cItemA.production.rhs.drop (cItemA.dotPosition + 1) ++ [cItemA.lookahead]) ∧
      "$" ≠ epsStr ∧
      cMissingDot = ⟨cProdB2, 0, mkLookahead "$"⟩ ∧
      cMissingDot ∉ closure cGrammarDot cSeedDot := by decide

/-- C7 amended: `closure` is idempotent (even as returned lists); it is
contained in every rule-closed superset of its seed (so it never exceeds
the least fixed point); and it is closed under the expansion rule up to
printable-form equality of items rather than item equality (the two differ
when a symbol is named `.`, as the counterexample shows). -/
theorem claim_c7_amended :
    (∀ (g : Grammar) (S : List LR1Item), closure g (closure g S) = closure g S) ∧
    (∀ (g : Grammar) (S : List LR1Item) (T : LR1Item → Prop),
      (∀ x ∈ S, T x) → closedUnderRule g T → ∀ x ∈ closure g S, T x) ∧
    (∀ (g : Grammar) (S : List LR1Item) (it : LR1Item), it ∈ closure g S →
      ∀ B, it.nextSymbol = some B → B.type = SymbolType.NON_TERMINAL →
      ∀ p ∈ g.productions, p.lhs.name = B.name →
      ∀ b ∈ firstOfSequence g
          (it.production.rhs.drop (it.dotPosition + 1) ++ [it.lookahead]),
        b ≠ epsStr →
        ∃ it2 ∈ closure g S, it2.toStr = (⟨p, 0, mkLookahead b⟩ : LR1Item).toStr) := by
  refine ⟨closure_idem, ?_, ?_⟩
  · intro g S T hS hT
    refine closure_least g S T ?_ hS
    intro it hit c hc
    obtain ⟨B, hB, hBt, prod, hprod, hlhs, term, hterm, hne, rfl⟩ := genItems_mem.mp hc
    exact hT it hit B hB hBt prod hprod hlhs term hterm hne
  · intro g S it hit B hB hBt p hp hlhs b hb hbne
    refine closure_keyClosed g S it hit _ ?_
    exact genItems_mem.mpr ⟨B, hB, hBt, p, hp, hlhs, b, hb, hbne, rfl⟩

/-- Witness for C7 amended on the dot grammar: idempotence holds, and the
item required by the rule is present up to printable form. -/
theorem claim_c7_witness :
    closure cGrammarDot (closure cGrammarDot cSeedDot) = closure cGrammarDot cSeedDot ∧
      ∃ it2 ∈ closure cGrammarDot cSeedDot,
        it2.toStr = (⟨cProdB2, 0, mkLookahead "$"⟩ : LR1Item).toStr :=
  ⟨claim_c7_amended.1 cGrammarDot cSeedDot,
   claim_c7_amended.2.2 cGrammarDot cSeedDot cItemA (by decide)
     ⟨"B", SymbolType.NON_TERMINAL⟩ (by decide) rfl cProdB2 (by decide) rfl
     "$" (by decide) (by decide)⟩

/-- C1 counterexample: on the grammar `S -> A | B ; A -> a ; B -> a`,
state 4 of the collection holds the two complete items `A -> a dot , $`
and `B -> a dot , $`; both write the cell `(4, $)`, and the final table
holds the SECOND write (reduce by `B -> a`), not the first.  The returned
table also carries no conflict record (its fields are exactly `action`,
`goto` and `states`), contradicting keep-first, report-and-surface
behaviour. -/
theorem claim_c1_counterexample :
    ((exCC1.states.getD 4 []).filterMap
        (actionWritesOfItem exG1 exCC1.transitions 4)) =
      [("$", Action.REDUCE ("A -> a") "A" 1), ("$", Action.REDUCE ("B -> a") "B" 1)] ∧
      actionLookup exT1 4 "$" = some (Action.REDUCE ("B -> a") "B" 1) ∧
      actionLookup exT1 4 "$" ≠ some (Action.REDUCE ("A -> a") "A" 1) := by decide

/-- C1 amended: a second write to an ACTION cell silently overwrites the
first: every cell of the built table holds exactly the LAST write produced
by the items of its state, in state order (the source only logs a console
warning on a reduce conflict and attaches nothing to the table). -/
theorem claim_c1_amended (g : Grammar) (cc : CanonicalCollection) (i : Nat)
    (state : List LR1Item) (a : String) (h : cc.states[i]? = some state) :
    actionLookup (buildPTfromCC g cc) i a =
      lastWrite (state.filterMap (actionWritesOfItem g cc.transitions i)) a :=
  actionLookup_lastWrite g cc i state a h

/-- Witness for C1 amended at the conflicted cell of the reduce-reduce
example. -/
theorem claim_c1_witness :
    actionLookup (buildPTfromCC exG1 exCC1) 4 "$" =
      lastWrite ((exCC1.states.getD 4 []).filterMap
        (actionWritesOfItem exG1 exCC1.transitions 4)) "$" :=
  claim_c1_amended exG1 exCC1 4 (exCC1.states.getD 4 []) "$" rfl

/-- C6 counterexample: on `junk` followed by `S -> a`, a production parses
but the source still throws its only error (modelled as `none`), and on
`S -> a` followed by `junk` the malformed line is silently skipped and
parsing succeeds; no MalformedRule error exists in the source. -/
theorem claim_c6_counterexample :
    parseGrammar "junk\nS -> a" = none ∧
      (parseGrammar "S -> a\njunk").isSome = true := by decide

/-- C6 amended: `parseGrammar` can fail only with its single Empty-grammar
error, and does so exactly when the first non-empty line does not split
around `->` into two non-empty parts (in particular when there is no
non-empty line); all other malformed lines are silently skipped. -/
theorem claim_c6_amended (input : String) :
    parseGrammar input = none ↔
      (match (gLines input).head? with
       | none => True
       | some l => lineParts l = none) := by
  have hloop : parseGrammar input = none ↔
      (parseGrammarLoop ((gLines input).foldl (fun acc l => setAdd acc (lhsOf l)) [])
        (gLines input) 0 none []).1 = none := by
    unfold parseGrammar
    cases h : parseGrammarLoop ((gLines input).foldl (fun acc l => setAdd acc (lhsOf l)) [])
        (gLines input) 0 none [] with
    | mk oss prods => cases oss <;> simp
  rw [hloop]
  cases hl : gLines input with
  | nil => simp [parseGrammarLoop]
  | cons l rest =>
    simp only [List.head?_cons]
    unfold parseGrammarLoop
    cases hlp : lineParts l with
    | none =>
      rw [parseGrammarLoop_oss_stable _ rest 1 none _ (by omega)]
      simp
    | some ab =>
      dsimp only
      rw [if_pos rfl]
      rw [parseGrammarLoop_oss_stable _ rest 1 _ _ (by omega)]
      simp

/-- C5 counterexample: on the grammar whose non-terminals are `S` and `S`
with an apostrophe, the augmented start symbol is named `S` + apostrophe,
which is not fresh: it is the lhs name of a pre-existing production.  No
further primes are appended. -/
theorem claim_c5_counterexample :
    (parseGrammar exInput5).isSome = true ∧
      ((parseGrammar exInput5).getD dfltGrammar).startSymbol.name ∈
        ((((parseGrammar exInput5).getD dfltGrammar).productions.drop 1).map
          (fun p => p.lhs.name)) := by decide

/-- C5 amended: the augmented start symbol is always the original start
name with exactly one apostrophe appended, with no uniqueness check, and
the production start-to-original is inserted at index 0. -/
theorem claim_c5_amended (input : String) (g : Grammar)
    (h : parseGrammar input = some g) :
    ∃ orig : Symbol, g.productions.head? = some ⟨g.startSymbol, [orig]⟩ ∧
      g.startSymbol.name = orig.name ++ sq := by
  unfold parseGrammar at h
  cases hm : parseGrammarLoop ((gLines input).foldl (fun acc l => setAdd acc (lhsOf l)) [])
      (gLines input) 0 none [] with
  | mk oss prods =>
    rw [hm] at h
    cases oss with
    | none => cases h
    | some orig =>
      dsimp only at h
      injection h with h2
      subst h2
      exact ⟨orig, rfl, rfl⟩

/-- Witness for C5 amended at the grammar `S -> a`. -/
theorem claim_c5_witness :
    ∃ orig : Symbol,
      exGSmall.productions.head? = some ⟨exGSmall.startSymbol, [orig]⟩ ∧
        exGSmall.startSymbol.name = orig.name ++ sq :=
  claim_c5_amended "S -> a" exGSmall rfl

/-- C4 counterexample: on the grammar `S -> S | a`, state 1 contains the
accept item (production 0 complete with lookahead `$`), but the cell
`ACTION[1, $]` holds the reduce by `S -> S` written after the ACCEPT, so
the equivalence of the claim fails in the only-if direction. -/
theorem claim_c4_counterexample :
    (∃ it ∈ exCC2.states.getD 1 [],
        it.production = exG2.productions.getD 0 dfltProd ∧
        it.dotPosition = it.production.rhs.length ∧
        it.lookahead.name = "$") ∧
      actionLookup exT2 1 "$" = some (Action.REDUCE ("S -> S") "S" 1) ∧
      actionLookup exT2 1 "$" ≠ some Action.ACCEPT := by decide

theorem mem_of_getLast?_eq {α : Type} {l : List α} {a : α}
    (h : l.getLast? = some a) : a ∈ l := by
  cases l using List.reverseRecOn with
  | nil => cases h
  | append_singleton xs x =>
    rw [List.getLast?_concat] at h
    injection h with h
    subst h
    exact List.mem_append_right xs (List.mem_singleton_self x)

/-- C4 amended: provided the start symbol has the single production
`p0 = start -> original`, an Accept in `ACTION[I, $]` implies the accept
item is in `I`; the converse holds only when no other item of `I` writes
the `$` cell after it (no complete item with lookahead `$` of another lhs,
and no item expecting a terminal named `$`) — otherwise the later write
overwrites Accept, as the counterexample shows. -/
theorem claim_c4_amended (g : Grammar) (cc : CanonicalCollection) (i : Nat)
    (state : List LR1Item) (p0 : Production)
    (h : cc.states[i]? = some state)
    (hp0 : g.productions.head? = some p0)
    (hstart : p0.lhs.name = g.startSymbol.name)
    (huniq : ∀ p ∈ g.productions, p.lhs.name = g.startSymbol.name → p = p0)
    (hprods : ∀ it ∈ state, it.production ∈ g.productions)
    (hdot : ∀ it ∈ state, it.dotPosition ≤ it.production.rhs.length) :
    (actionLookup (buildPTfromCC g cc) i "$" = some Action.ACCEPT →
      ∃ it ∈ state, it.production = p0 ∧ it.dotPosition = p0.rhs.length ∧
        it.lookahead.name = "$") ∧
    ((∃ it ∈ state, it.production = p0 ∧ it.dotPosition = p0.rhs.length ∧
        it.lookahead.name = "$") →
      (∀ it ∈ state, it.nextSymbol = none → it.lookahead.name = "$" →
        it.production.lhs.name = g.startSymbol.name) →
      (∀ it ∈ state, ∀ B, it.nextSymbol = some B → B.name ≠ "$") →
      actionLookup (buildPTfromCC g cc) i "$" = some Action.ACCEPT) := by
  have hlook := actionLookup_lastWrite g cc i state "$" h
  constructor
  · intro hacc
    rw [hlook] at hacc
    unfold lastWrite at hacc
    obtain ⟨kv, hkv, hkv2⟩ := Option.map_eq_some'.mp hacc
    have hkvmem : kv ∈ (state.filterMap
        (actionWritesOfItem g cc.transitions i)).filter (fun kv => kv.1 = "$") :=
      mem_of_getLast?_eq hkv
    have hkvf := List.mem_filter.mp hkvmem
    obtain ⟨it, hit, hwit⟩ := List.mem_filterMap.mp hkvf.1
    unfold actionWritesOfItem at hwit
    cases hnx : it.nextSymbol with
    | some next =>
      rw [hnx] at hwit; dsimp only at hwit
      by_cases hterm : next.type = SymbolType.TERMINAL
      · rw [if_pos hterm] at hwit
        cases htr : trGet? cc.transitions i next.name with
        | some j =>
          rw [htr] at hwit
          injection hwit with he
          rw [← he] at hkv2
          cases hkv2
        | none => rw [htr] at hwit; cases hwit
      · rw [if_neg hterm] at hwit; cases hwit
    | none =>
      rw [hnx] at hwit; dsimp only at hwit
      by_cases hcond : it.production.lhs.name = g.startSymbol.name ∧
          it.lookahead.name = "$"
      · have hpp := huniq it.production (hprods it hit) hcond.1
        refine ⟨it, hit, hpp, ?_, hcond.2⟩
        have h1 : it.dotPosition ≤ it.production.rhs.length := hdot it hit
        have h2 : it.production.rhs[it.dotPosition]? = none := hnx
        rw [List.getElem?_eq_none_iff] at h2
        rw [← hpp]
        omega
      · rw [if_neg hcond] at hwit
        injection hwit with he
        rw [← he] at hkv2
        cases hkv2
  · intro hex hnored hnoshift
    rw [hlook]
    unfold lastWrite
    have hallacc : ∀ kv ∈ (state.filterMap
        (actionWritesOfItem g cc.transitions i)).filter (fun kv => kv.1 = "$"),
        kv = ("$", Action.ACCEPT) := by
      intro kv hkv
      have hkvf := List.mem_filter.mp hkv
      have hkey : kv.1 = "$" := of_decide_eq_true hkvf.2
      obtain ⟨it, hit, hwit⟩ := List.mem_filterMap.mp hkvf.1
      unfold actionWritesOfItem at hwit
      cases hnx : it.nextSymbol with
      | some next =>
        rw [hnx] at hwit; dsimp only at hwit
        by_cases hterm : next.type = SymbolType.TERMINAL
        · rw [if_pos hterm] at hwit
          cases htr : trGet? cc.transitions i next.name with
          | some j =>
            rw [htr] at hwit
            injection hwit with he
            exfalso
            apply hnoshift it hit next hnx
            rw [← he] at hkey
            exact hkey
          | none => rw [htr] at hwit; cases hwit
        · rw [if_neg hterm] at hwit; cases hwit
      | none =>
        rw [hnx] at hwit; dsimp only at hwit
        by_cases hcond : it.production.lhs.name = g.startSymbol.name ∧
            it.lookahead.name = "$"
        · rw [if_pos hcond] at hwit
          injection hwit with he
          exact he.symm
        · rw [if_neg hcond] at hwit
          injection hwit with he
          exfalso
          apply hcond
          have hla : it.lookahead.name = "$" := by rw [← he] at hkey; exact hkey
          exact ⟨hnored it hit hnx hla, hla⟩
    obtain ⟨it0, hit0, hprod0, hdot0, hla0⟩ := hex
    have hwrite0 : actionWritesOfItem g cc.transitions i it0 =
        some ("$", Action.ACCEPT) := by
      unfold actionWritesOfItem
      have hnx0 : it0.nextSymbol = none := by
        unfold LR1Item.nextSymbol
        rw [List.getElem?_eq_none]
        rw [hprod0, hdot0]
      rw [hnx0]
      rw [if_pos ⟨by rw [hprod0]; exact hstart, hla0⟩]
    have hmem0 : ("$", Action.ACCEPT) ∈ (state.filterMap
        (actionWritesOfItem g cc.transitions i)).filter (fun kv => kv.1 = "$") := by
      refine List.mem_filter.mpr ⟨?_, by decide⟩
      exact List.mem_filterMap.mpr ⟨it0, hit0, hwrite0⟩
    have hne2 : (state.filterMap
        (actionWritesOfItem g cc.transitions i)).filter (fun kv => kv.1 = "$") ≠ [] := by
      intro hcon
      rw [hcon] at hmem0
      cases hmem0
    rw [getLast?_all_eq hne2 hallacc]
    rfl

/-- Witness for C4 amended at the grammar `S -> a`: state 1 holds the
accept item with no competing writer, so its `$` cell is Accept. -/
theorem claim_c4_witness :
    actionLookup (buildPTfromCC exGSmall exCCSmall) 1 "$" = some Action.ACCEPT :=
  (claim_c4_amended exGSmall exCCSmall 1 (exCCSmall.states.getD 1 [])
      (exGSmall.productions.getD 0 dfltProd) rfl rfl (by decide) (by decide)
      (by decide) (by decide)).2
    (by decide) (by decide) (by decide)

/-- C2: a reduce iteration of the driver pops exactly `2k` mixed-stack
entries, pops `k` node-stack entries reversing them into the child list
(with the synthetic epsilon leaf when `k = 0`), pushes the lhs name and
then the GOTO target over the uncovered top state, does not advance the
cursor, and fails with the GOTO error exactly when the GOTO cell is
absent. -/
theorem claim_c2_reduce_step (table : ParsingTable) (toks : List String)
    (fuel : Nat) (σ : LoopState) (s s2 : Nat) (tok pstr lhs : String) (k : Nat)
    (htop : σ.stack.getLast? = some (StackEntry.st s))
    (htok : toks[σ.ip]? = some tok)
    (hact : actionLookup table s tok = some (Action.REDUCE pstr lhs k))
    (hlen : 2 * k + 1 ≤ σ.stack.length)
    (hns : k ≤ σ.nodeStack.length)
    (hs2 : (σ.stack.take (σ.stack.length - 2 * k)).getLast? =
      some (StackEntry.st s2)) :
    parseLoop table toks (fuel + 1) σ =
      match gotoLookup table s2 lhs with
      | some j =>
        parseLoop table toks fuel
          ⟨σ.stack.take (σ.stack.length - 2 * k) ++
             [StackEntry.sym lhs, StackEntry.st j],
           σ.nodeStack.take (σ.nodeStack.length - k) ++
             [ParseNode.mk lhs (if k = 0 then [ParseNode.mk epsStr []]
               else σ.nodeStack.drop (σ.nodeStack.length - k))],
           σ.ip,
           σ.steps ++ [⟨σ.stepCount, σ.stack.map entryToString, toks.drop σ.ip,
             "Reduce by " ++ pstr⟩],
           σ.stepCount + 1⟩
      | none =>
        some ⟨σ.steps ++ [⟨σ.stepCount, σ.stack.map entryToString, toks.drop σ.ip,
            "Reduce by " ++ pstr⟩], false,
          some ("GOTO Error: No transition from state " ++ toString s2 ++
            " on symbol " ++ lhs), none⟩ := by
  cases hg : gotoLookup table s2 lhs with
  | some j =>
    simp only [parseLoop, htop, htok, hact, popN_eq_take,
      popNodes_spec k σ.nodeStack hns, hs2, hg, List.reverse_reverse,
      entryToString]
  | none =>
    simp only [parseLoop, htop, htok, hact, popN_eq_take,
      popNodes_spec k σ.nodeStack hns, hs2, hg, List.reverse_reverse,
      entryToString]

/-- Witness for C2: one concrete reduce by `S -> a` over the hand-written
table pops the shifted `a`, pushes `S` and the GOTO state 2, builds the
internal node, and leaves the cursor in place. -/
theorem claim_c2_witness :
    parseLoop exT3 ["a", "$"] 5 exSigma =
      parseLoop exT3 ["a", "$"] 4
        ⟨[StackEntry.st 0, StackEntry.sym "S", StackEntry.st 2],
         [ParseNode.mk "S" [ParseNode.mk "a" []]], 1,
         [⟨1, ["0", "a", "1"], ["$"], "Reduce by S -> a"⟩], 2⟩ :=
  claim_c2_reduce_step exT3 ["a", "$"] 4 exSigma 1 0 "$" ("S -> a") "S" 1
    rfl rfl rfl (by decide) (by decide) rfl

end CLR
